import Mathlib

/-!
Verification of the stack (Zigangirov-Jelinek) sequential decoder of
`libccsoft` (`CC_StackDecoding_FA.h`).

The decoder is shallowly embedded: the mutable decoder instance becomes an
explicit `DecoderState` threaded through the functions, the `while` loop of
`decode` becomes a fuel-indexed recursion, C++ `float` path-metric values
are modelled as elements of a linearly ordered additive commutative group
`α` (the decoder only adds, subtracts and compares metric values; the
concrete witness runs instantiate `α := ℤ`), and C++ `unsigned int`
arithmetic and `int`-to-`unsigned` conversions are modelled explicitly
modulo 2^32.

Collaborator classes that sit outside the decoder header
(`CC_SequentialDecodingInternal_FA.h` providing `NodeEdgeOrdering`,
`init_root`, `back_track` and `log2`; `CC_Encoding_FA.h` providing the
encoder; `CC_ReliabilityMatrix.h`) are modelled from the specification and
are marked `Modelled from the spec:` in their doc comments.
-/

namespace ccsoft

/-- 2^32, the modulus of C++ `unsigned int` arithmetic. -/
def u32 : Nat := 4294967296

/-- C++ `unsigned int` subtraction `a - b` (wrap-around modulo 2^32). -/
def usub (a b : Nat) : Nat := (a % u32 + u32 - b % u32) % u32

/-- C++ conversion of a (signed) `int` to `unsigned int`, as happens in the
comparisons `get_depth() < relmat.get_message_length() - 1` and
`forward_depth > relmat.get_message_length() - get_m()`. -/
def uconv (d : Int) : Nat := (d % (4294967296 : Int)).toNat

/-- Modelled from the spec: the external Reliability Source
(`CC_ReliabilityMatrix.h`, not under `src/`). `rel out pos` is
`relmat(out_symbol, pos)`; `message_length` is `get_message_length()`;
`nb_symbols_log2` is `get_nb_symbols_log2()`. -/
structure CC_ReliabilityMatrix (α : Type) where
  message_length : Nat
  nb_symbols_log2 : Nat
  rel : Nat → Nat → α

/-- The decoder parameters together with the external encoder model.
`k`, `m`, `n` are `get_k()`, `get_m()`, `get_n()` of `CC_Encoding_FA`.
`encode regs sym = (out_symbol, new_regs)` is Modelled from the spec:
the encoder (`CC_Encoding_FA.h`, not under `src/`) is a deterministic,
restartable function of (register state, input symbol); the in-place
register-stepping optimisation of the C++ loop is required by the spec to
be "identical to stepping independently from the snapshot for every
candidate", which is what this function does. `init_regs` is the encoder
reset state from which the root is expanded. `log2` models
`CC_SequentialDecodingInternal_FA::log2` (not under `src/`) abstractly.
The remaining fields are the configuration of `CC_SequentialDecoding_FA`:
`tail_zeros`, `use_metric_limit`/`metric_limit`,
`use_node_limit`/`node_limit` and `edge_bias`. -/
structure Machine (α : Type) where
  k : Nat
  m : Nat
  n : Nat
  init_regs : Nat
  encode : Nat → Nat → Nat × Nat
  log2 : α → α
  tail_zeros : Bool
  use_metric_limit : Bool
  metric_limit : α
  use_node_limit : Bool
  node_limit : Nat
  edge_bias : α

/-- A code-tree node (`CC_TreeNodeEdge_FA`, fields as passed to its
constructor at line 236 of `CC_StackDecoding_FA.h`:
`(node_count, parent, in_symbol, edge_metric, forward_path_metric, depth)`
followed by `set_registers`). The tree is kept as an arena indexed by the
creation id, so `parent_id` is the parent's creation id (`none` for the
root) and the register snapshot is an abstract encoder state. -/
structure Node (α : Type) where
  id : Nat
  parent_id : Option Nat
  in_symbol : Nat
  edge_metric : α
  path_metric : α
  depth : Int
  registers : Nat
deriving DecidableEq, Repr

/-- Placeholder node returned by out-of-range arena lookups; every lookup
performed by the decoder is shown to be in range. -/
def dummyNode {α : Type} [LinearOrderedAddCommGroup α] : Node α :=
  { id := 0, parent_id := none, in_symbol := 0, edge_metric := 0,
    path_metric := 0, depth := -1, registers := 0 }

/-- The run state of a decoder instance: the node arena (index = creation
id), the parent-to-child slot links established by
`set_outgoing_node_edge` (entries `(parent, in_symbol, child)`), the
frontier `node_edge_stack` as the set of its `(path_metric, node_id)`
entries, and the counters of `CC_SequentialDecoding_FA`. The `expanded`
field is proof-only instrumentation recording the ids on which
`visit_node_forward` has been invoked; it influences no computation. -/
structure DecoderState (α : Type) where
  nodes : List (Node α)
  links : List (Nat × Nat × Nat)
  node_edge_stack : List (α × Nat)
  node_count : Nat
  cur_depth : Int
  max_depth : Int
  codeword_score : α
  expanded : List Nat
deriving DecidableEq, Repr

/-- Arena lookup by creation id. -/
def getN {α : Type} [LinearOrderedAddCommGroup α] (s : DecoderState α) (i : Nat) : Node α := s.nodes.getD i dummyNode

/-- Modelled from the spec: the strict "greater" comparison of
`NodeEdgeOrdering` (defined in `CC_SequentialDecodingInternal_FA.h`, not
under `src/`): numerically greater cumulative metric first; ties broken
deterministically by creation id, the earlier-created (smaller id) node
winning, as the spec directs (§4.1, §9). -/
def neoGT {α : Type} [LinearOrderedAddCommGroup α] (a b : α × Nat) : Bool :=
  decide (b.1 < a.1) || (decide (a.1 = b.1) && decide (a.2 < b.2))

/-- `node_edge_stack.begin()`: the entry of the map that is greatest in the
`std::greater<NodeEdgeOrdering>` order, i.e. the maximum under `neoGT`;
`none` on an empty stack. -/
def stackBest {α : Type} [LinearOrderedAddCommGroup α] : List (α × Nat) → Option (α × Nat)
  | [] => none
  | e :: rest => some (rest.foldl (fun acc x => if neoGT x acc then x else acc) e)

/-- `get_stack_score()`: `node_edge_stack.begin()->first.path_metric`.
Calling it on an empty stack dereferences `end()` in C++; the model
returns 0 there, and the claims only use it on a non-empty stack. -/
def get_stack_score {α : Type} [LinearOrderedAddCommGroup α] (s : DecoderState α) : α :=
  match stackBest s.node_edge_stack with
  | some e => e.1
  | none => 0

/-- `get_stack_size()`. -/
def get_stack_size {α : Type} [LinearOrderedAddCommGroup α] (s : DecoderState α) : Nat := s.node_edge_stack.length

/-- `remove_node_from_stack`: full scan of the map, erasing the (unique)
entry whose node pointer matches, i.e. the first entry carrying this id. -/
def remove_node_from_stack {α : Type} [LinearOrderedAddCommGroup α] : List (α × Nat) → Nat → List (α × Nat)
  | [], _ => []
  | e :: rest, nid => if e.2 = nid then rest else e :: remove_node_from_stack rest nid

/-- The register state the encoder is restored to before expanding a node:
`set_registers(node_edge->get_registers())` when `get_depth() >= 0`, and
the encoder's reset state for the root (spec §4.2 step 1). -/
def regsOf {α : Type} [LinearOrderedAddCommGroup α] (M : Machine α) (nd : Node α) : Nat :=
  if 0 ≤ nd.depth then nd.registers else M.init_regs

/-- The edge metric of candidate `sym` taken from register state `pregs`
at forward depth `fd`:
`log2(relmat(out_symbol, forward_depth)) - edge_bias` (line 231). -/
def edge_metric_of {α : Type} [LinearOrderedAddCommGroup α] (M : Machine α) (R : CC_ReliabilityMatrix α)
    (pregs : Nat) (sym : Nat) (fd : Int) : α :=
  M.log2 (R.rel (M.encode pregs sym).1 (uconv fd)) - M.edge_bias

/-- The materialization test of line 234:
`(!use_metric_limit) || (forward_path_metric > metric_limit)`. -/
def admissible {α : Type} [LinearOrderedAddCommGroup α] (M : Machine α) (fpm : α) : Bool :=
  !M.use_metric_limit || decide (M.metric_limit < fpm)

/-- The candidate alphabet bound `end_symbol` of lines 218-225: `1` when
`tail_zeros && (forward_depth > message_length - m)` (`int`-vs-`unsigned`
comparison), else `1 << k`. -/
def end_symbol {α : Type} [LinearOrderedAddCommGroup α] (M : Machine α) (R : CC_ReliabilityMatrix α) (fd : Int) : Nat :=
  if M.tail_zeros = true ∧ usub R.message_length M.m < uconv fd then 1 else 2 ^ M.k

/-- The candidate loop of lines 228-243, producing the list of materialized
children in candidate order: for each input symbol the edge metric and
forward path metric (`edge_metric + node_edge->get_path_metric()`) are
computed, and an admissible candidate becomes a node carrying the next
creation id (`cnt` threads `node_count`); pruned candidates produce
nothing and do not advance the id counter. -/
def candChildren {α : Type} [LinearOrderedAddCommGroup α] (M : Machine α) (R : CC_ReliabilityMatrix α) (pid : Nat)
    (pregs : Nat) (pμ : α) (fd : Int) : List Nat → Nat → List (Node α)
  | [], _ => []
  | sym :: rest, cnt =>
    if admissible M (edge_metric_of M R pregs sym fd + pμ) = true then
      { id := cnt, parent_id := some pid, in_symbol := sym,
        edge_metric := edge_metric_of M R pregs sym fd,
        path_metric := edge_metric_of M R pregs sym fd + pμ,
        depth := fd,
        registers := (M.encode pregs sym).2 } ::
        candChildren M R pid pregs pμ fd rest (cnt + 1)
    else candChildren M R pid pregs pμ fd rest cnt

/-- The children materialized by expanding node `nid` in state `s`. -/
def visitNew {α : Type} [LinearOrderedAddCommGroup α] (M : Machine α) (R : CC_ReliabilityMatrix α) (s : DecoderState α)
    (nid : Nat) : List (Node α) :=
  candChildren M R nid (regsOf M (getN s nid)) (getN s nid).path_metric
    ((getN s nid).depth + 1)
    (List.range (end_symbol M R ((getN s nid).depth + 1))) s.node_count

/-- `visit_node_forward` (lines 206-256): expand a node one message
position forward. Children are appended to the arena, linked into the
parent's child slots, and inserted into the frontier; `node_count` grows by
the number of materialized children; `cur_depth`/`max_depth` are updated;
finally the expanded node itself is removed from the frontier unless it is
the root (`get_depth() >= 0` test of line 252). The id is also recorded in
the proof-only `expanded` list. -/
def visit_node_forward {α : Type} [LinearOrderedAddCommGroup α] (M : Machine α) (R : CC_ReliabilityMatrix α)
    (s : DecoderState α) (nid : Nat) : DecoderState α :=
  { nodes := s.nodes ++ visitNew M R s nid
    links :=
      s.links ++ (visitNew M R s nid).map (fun c => (nid, c.in_symbol, c.id))
    node_edge_stack :=
      if 0 ≤ (getN s nid).depth then
        remove_node_from_stack
          (s.node_edge_stack ++
            (visitNew M R s nid).map (fun c => (c.path_metric, c.id))) nid
      else
        s.node_edge_stack ++
          (visitNew M R s nid).map (fun c => (c.path_metric, c.id))
    node_count := s.node_count + (visitNew M R s nid).length
    cur_depth := (getN s nid).depth + 1
    max_depth :=
      if s.max_depth < (getN s nid).depth + 1 then (getN s nid).depth + 1
      else s.max_depth
    codeword_score := s.codeword_score
    expanded := s.expanded ++ [nid] }

/-- The decoder run state after `reset()`: empty tree, empty frontier,
zeroed counters (Modelled from the spec for the parts performed by
`CC_SequentialDecoding_FA::reset` and
`CC_SequentialDecodingInternal_FA::reset`, which are not under `src/`:
"Reset frontier/counters/score"). -/
def initial_state {α : Type} [LinearOrderedAddCommGroup α] : DecoderState α :=
  { nodes := [], links := [], node_edge_stack := [], node_count := 0,
    cur_depth := -1, max_depth := -1, codeword_score := 0, expanded := [] }

/-- Modelled from the spec: the root node materialized by `init_root`
(`CC_SequentialDecodingInternal_FA.h`, not under `src/`): cumulative
metric 0, depth sentinel -1, no parent, first creation id. -/
def rootNode {α : Type} [LinearOrderedAddCommGroup α] (M : Machine α) : Node α :=
  { id := 0, parent_id := none, in_symbol := 0, edge_metric := 0,
    path_metric := 0, depth := -1, registers := M.init_regs }

/-- The state after `reset(); init_root(); node_count++` (lines 123-125). -/
def root_state {α : Type} [LinearOrderedAddCommGroup α] (M : Machine α) : DecoderState α :=
  { initial_state with nodes := [rootNode M], node_count := 1 }

/-- The state after the initial expansion of the root (line 126), i.e. at
first entry of the decode loop. -/
def after_init {α : Type} [LinearOrderedAddCommGroup α] (M : Machine α) (R : CC_ReliabilityMatrix α) : DecoderState α :=
  visit_node_forward M R (root_state M) 0

/-- Modelled from the spec: `back_track` (shared tree-storage collaborator,
`CC_SequentialDecodingInternal_FA.h`, not under `src/`): walk parent
references from a terminal node to the root collecting each traversed
edge's input symbol, producing the decoded sequence in chronological
order (§4.4). Prepending while walking up yields the reversed-collection
order the spec describes. Parent ids strictly decrease, so fuel
`nodes.length` always suffices. -/
def back_track {α : Type} [LinearOrderedAddCommGroup α] (nodes : List (Node α)) : Nat → Nat → List Nat → List Nat
  | 0, _, acc => acc
  | fuel + 1, nid, acc =>
    match (nodes.getD nid dummyNode).parent_id with
    | none => acc
    | some p => back_track nodes fuel p ((nodes.getD nid dummyNode).in_symbol :: acc)

/-- Outcome of `decode`. `success` models `return true` together with the
out-parameter `decoded_message` and the state (carrying `codeword_score`);
`nodeLimitFail` and `metricLimitFail` model the two `return false`
branches; `confError` models the two `throw CCSoft_Exception`
configuration checks (the thrown-over instance state is carried
unchanged); `ubEmptyDeref` marks the C++ undefined behaviour of
dereferencing `begin()` of an empty stack in the result branch, shown
unreachable when no metric limit is set; `outOfFuel` marks exhaustion of
the loop fuel of the embedding. -/
inductive DecodeResult (α : Type) where
  | confError (s : DecoderState α)
  | success (msg : List Nat) (score : α) (s : DecoderState α)
  | nodeLimitFail (s : DecoderState α)
  | metricLimitFail (s : DecoderState α)
  | ubEmptyDeref (s : DecoderState α)
  | outOfFuel (s : DecoderState α)
deriving DecidableEq, Repr

/-- The decoder state carried by a `DecodeResult`. -/
def final_state {α : Type} [LinearOrderedAddCommGroup α] : DecodeResult α → DecoderState α
  | .confError s => s
  | .success _ _ s => s
  | .nodeLimitFail s => s
  | .metricLimitFail s => s
  | .ubEmptyDeref s => s
  | .outOfFuel s => s

/-- The decode loop (lines 129-155): while the stack is non-empty and the
best node's depth is below `message_length - 1` (`int`-vs-`unsigned`
comparison), expand the best node, then fail if the node budget is
exceeded (`use_node_limit && node_count > node_limit`). On loop exit the
result branch `(!use_metric_limit || stack nonempty)` backtracks from the
best node and records its path metric as the codeword score, else decoding
failed on the metric limit. -/
def decodeLoop {α : Type} [LinearOrderedAddCommGroup α] (M : Machine α) (R : CC_ReliabilityMatrix α) :
    Nat → DecoderState α → DecodeResult α
  | fuel, s =>
    match stackBest s.node_edge_stack with
    | some (pm, bid) =>
      if uconv ((getN s bid).depth) < usub R.message_length 1 then
        match fuel with
        | 0 => .outOfFuel s
        | fuel' + 1 =>
          let s' := visit_node_forward M R s bid
          if M.use_node_limit = true ∧ M.node_limit < s'.node_count then
            .nodeLimitFail s'
          else
            decodeLoop M R fuel' s'
      else
        .success (back_track s.nodes s.nodes.length bid []) pm
          { s with codeword_score := pm }
    | none =>
      if M.use_metric_limit = true then .metricLimitFail s
      else .ubEmptyDeref s

/-- `decode` (lines 111-156): the two reliability-matrix shape checks
(throwing before any state is touched), then reset, root materialization
and expansion, then the decode loop. -/
def decode {α : Type} [LinearOrderedAddCommGroup α] (M : Machine α) (R : CC_ReliabilityMatrix α) (fuel : Nat)
    (s₀ : DecoderState α) : DecodeResult α :=
  if R.message_length < M.m then .confError s₀
  else if R.nb_symbols_log2 ≠ M.n then .confError s₀
  else decodeLoop M R fuel (after_init M R)

/-- The states a decode run passes through once the configuration checks
have passed: the state at first loop entry (root expanded), and every
state produced by expanding the best frontier node while the loop guard
holds. -/
inductive Reaches {α : Type} [LinearOrderedAddCommGroup α] (M : Machine α) (R : CC_ReliabilityMatrix α) :
    DecoderState α → Prop where
  | start : Reaches M R (after_init M R)
  | step {s : DecoderState α} {pm : α} {bid : Nat} :
      Reaches M R s →
      stackBest s.node_edge_stack = some (pm, bid) →
      uconv ((getN s bid).depth) < usub R.message_length 1 →
      Reaches M R (visit_node_forward M R s bid)

/-- The parent-child relation recorded by materialization: depth grows by
one, the cumulative metric is the edge metric plus the parent's cumulative
metric, and the edge metric and register snapshot come from encoding the
child's input symbol from the parent's register state. -/
def ChildRel {α : Type} [LinearOrderedAddCommGroup α] (M : Machine α) (R : CC_ReliabilityMatrix α) (p c : Node α) : Prop :=
  c.depth = p.depth + 1 ∧
  c.path_metric = c.edge_metric + p.path_metric ∧
  c.edge_metric = edge_metric_of M R (regsOf M p) c.in_symbol c.depth ∧
  c.registers = (M.encode (regsOf M p) c.in_symbol).2

/-- The run invariant of the decoder state. -/
structure Inv {α : Type} [LinearOrderedAddCommGroup α] (M : Machine α) (R : CC_ReliabilityMatrix α) (s : DecoderState α) :
    Prop where
  count_eq : s.node_count = s.nodes.length
  id_eq : ∀ i, i < s.nodes.length → (getN s i).id = i
  root_mem : 0 < s.nodes.length
  root_eq : getN s 0 = rootNode M
  parent_some : ∀ i, 0 < i → i < s.nodes.length →
    ∃ p, (getN s i).parent_id = some p
  chain : ∀ i, i < s.nodes.length → ∀ p, (getN s i).parent_id = some p →
    p < i ∧ ChildRel M R (getN s p) (getN s i)
  depth_le : ∀ i, i < s.nodes.length →
    (getN s i).depth ≤ (R.message_length : Int) - 1
  depth_ge : ∀ i, i < s.nodes.length → -1 ≤ (getN s i).depth
  stack_sound : ∀ q i, (q, i) ∈ s.node_edge_stack →
    i < s.nodes.length ∧ i ≠ 0 ∧ i ∉ s.expanded ∧ q = (getN s i).path_metric
  stack_complete : ∀ i, i < s.nodes.length → i ≠ 0 → i ∉ s.expanded →
    ((getN s i).path_metric, i) ∈ s.node_edge_stack
  stack_nodup : (s.node_edge_stack.map Prod.snd).Nodup
  expanded_lt : ∀ i ∈ s.expanded, i < s.nodes.length
  root_expanded : 0 ∈ s.expanded
  tail_zero_sym : M.tail_zeros = true → ∀ i, i < s.nodes.length →
    usub R.message_length M.m < uconv ((getN s i).depth) →
    (getN s i).in_symbol = 0

/-- What the success exit of the decode loop delivers when the best
frontier node `bid` (metric `pm`) has terminal depth: `decode` succeeds,
the message is the reversed parent-walk symbol collection from `bid`, the
recorded score is `pm`, which is `bid`'s cumulative path metric, and `bid`
sits at depth `message_length - 1`. -/
def TerminalExitSpec {α : Type} [LinearOrderedAddCommGroup α] (M : Machine α) (R : CC_ReliabilityMatrix α)
    (s : DecoderState α) (pm : α) (bid : Nat) (fuel : Nat) : Prop :=
  decodeLoop M R fuel s =
    .success (back_track s.nodes s.nodes.length bid []) pm
      { s with codeword_score := pm } ∧
  bid < s.nodes.length ∧
  (getN s bid).depth = (R.message_length : Int) - 1 ∧
  pm = (getN s bid).path_metric

/-- What `stackBest` (the expansion choice of the decode loop, and the
entry reported by `get_stack_score`) satisfies: it is a frontier entry, it
carries the numerically greatest cumulative metric, earlier-created nodes
win ties, its key metric is the chosen node's cumulative metric, and one
more loop iteration expands exactly this node. -/
def BestChoiceSpec {α : Type} [LinearOrderedAddCommGroup α] (M : Machine α) (R : CC_ReliabilityMatrix α)
    (s : DecoderState α) (pm : α) (bid : Nat) : Prop :=
  (pm, bid) ∈ s.node_edge_stack ∧
  (∀ q i, (q, i) ∈ s.node_edge_stack → q ≤ pm ∧ (q = pm → bid ≤ i)) ∧
  get_stack_score s = pm ∧
  bid < s.nodes.length ∧
  pm = (getN s bid).path_metric ∧
  (∀ fuel : Nat, uconv ((getN s bid).depth) < usub R.message_length 1 →
    decodeLoop M R (fuel + 1) s =
      (if M.use_node_limit = true ∧
          M.node_limit < (visit_node_forward M R s bid).node_count then
        .nodeLimitFail (visit_node_forward M R s bid)
      else decodeLoop M R fuel (visit_node_forward M R s bid)))

/-- The frontier characterization: the root has been expanded on creation
and a node id holds a frontier entry exactly when it has been materialized
but not expanded and is not the root. -/
def FrontierSpec {α : Type} [LinearOrderedAddCommGroup α] (s : DecoderState α) : Prop :=
  0 ∈ s.expanded ∧
  ∀ i : Nat, (∃ q, (q, i) ∈ s.node_edge_stack) ↔
    (i < s.nodes.length ∧ i ∉ s.expanded ∧ i ≠ 0)

/-- What one expansion materializes: a candidate symbol below `end_symbol`
gets a child (linked into the parent's slot for that symbol and inserted
into the frontier) exactly when it passes the metric-floor test; the new
children carry consecutive creation ids starting at `node_count`; and the
node count grows by the number of admissible candidates only, so pruned
hypotheses are not counted. -/
def MaterializationSpec {α : Type} [LinearOrderedAddCommGroup α] (M : Machine α) (R : CC_ReliabilityMatrix α)
    (s : DecoderState α) (nid : Nat) : Prop :=
  let s' := visit_node_forward M R s nid
  let new := s'.nodes.drop s.nodes.length
  let nd := getN s nid
  let fd := nd.depth + 1
  let pregs := regsOf M nd
  (∀ sym, sym < end_symbol M R fd →
    (admissible M (edge_metric_of M R pregs sym fd + nd.path_metric) = true ↔
      ∃ c ∈ new, c.in_symbol = sym ∧ c.parent_id = some nid ∧
        c.path_metric = edge_metric_of M R pregs sym fd + nd.path_metric ∧
        (nid, sym, c.id) ∈ s'.links ∧
        (c.path_metric, c.id) ∈ s'.node_edge_stack)) ∧
  new.map (fun c => c.id) = List.range' s.node_count new.length ∧
  s'.node_count = s.node_count + new.length ∧
  new.length = ((List.range (end_symbol M R fd)).filter
    (fun sym =>
      admissible M (edge_metric_of M R pregs sym fd + nd.path_metric))).length

/-- The zero-tail restriction actually enforced by the code: every
materialized node at a message position strictly greater than
`message_length - m` carries the all-zero input symbol. -/
def ZeroTailSpec {α : Type} [LinearOrderedAddCommGroup α] (M : Machine α) (R : CC_ReliabilityMatrix α)
    (s : DecoderState α) : Prop :=
  ∀ i, i < s.nodes.length →
    usub R.message_length M.m < uconv ((getN s i).depth) →
    (getN s i).in_symbol = 0

/-- The node-budget behaviour actually enforced by the code: an in-loop
expansion that pushes the node count over the budget makes the loop stop
at once with the boolean failure result, and the total number of
materialized nodes never exceeds `max(budget, 1 + 2^k) + 2^k` (the root
expansion itself is not budget-checked, hence the `1 + 2^k` floor). -/
def NodeBudgetSpec {α : Type} [LinearOrderedAddCommGroup α] (M : Machine α) (R : CC_ReliabilityMatrix α)
    (fuel : Nat) (s₀ : DecoderState α) : Prop :=
  (final_state (decode M R fuel s₀)).node_count ≤
    max M.node_limit (1 + 2 ^ M.k) + 2 ^ M.k ∧
  (∀ (s : DecoderState α) (pm : α) (bid fuel' : Nat),
    stackBest s.node_edge_stack = some (pm, bid) →
    uconv ((getN s bid).depth) < usub R.message_length 1 →
    M.node_limit < (visit_node_forward M R s bid).node_count →
    decodeLoop M R (fuel' + 1) s =
      .nodeLimitFail (visit_node_forward M R s bid))

/-- The configuration-error behaviour: `decode` throws exactly when the
reliability matrix is too short or its symbol width mismatches the code
output width, leaving the instance state untouched; on a fresh instance
the node count stays 0. -/
def ConfErrorSpec {α : Type} [LinearOrderedAddCommGroup α] (M : Machine α) (R : CC_ReliabilityMatrix α) (fuel : Nat)
    (s₀ : DecoderState α) : Prop :=
  ((R.message_length < M.m ∨ R.nb_symbols_log2 ≠ M.n) ↔
    decode M R fuel s₀ = .confError s₀) ∧
  (R.message_length < M.m →
    final_state (decode M R fuel initial_state) = initial_state ∧
    (final_state (decode M R fuel initial_state)).node_count = 0)

/-- The no-viable-path behaviour: the frontier can only empty out when a
metric floor is configured; the metric-limit exit is the boolean failure
result (a constructor distinct from the thrown configuration error); and
without a metric floor neither the metric-limit failure nor the
empty-stack dereference in the result branch can occur. -/
def MetricFailSpec {α : Type} [LinearOrderedAddCommGroup α] (M : Machine α) (R : CC_ReliabilityMatrix α) (fuel : Nat)
    (s₀ s' : DecoderState α) : Prop :=
  (M.use_metric_limit = false →
    ∀ s, Reaches M R s → s.node_edge_stack ≠ []) ∧
  (decode M R fuel s₀ = .metricLimitFail s' → M.use_metric_limit = true) ∧
  (M.use_metric_limit = false →
    decode M R fuel s₀ ≠ .metricLimitFail s' ∧
    decode M R fuel s₀ ≠ .ubEmptyDeref s')

/-- The path-metric recurrence: the root's cumulative metric is 0 and
every materialized non-root node's cumulative metric is its parent's
cumulative metric plus its own edge metric, the edge metric being
`log2(reliability) - edge_bias` for the reliability looked up at the
node's position for the encoder output along its edge. -/
def MetricChainSpec {α : Type} [LinearOrderedAddCommGroup α] (M : Machine α) (R : CC_ReliabilityMatrix α)
    (s : DecoderState α) : Prop :=
  (getN s 0).path_metric = 0 ∧ (getN s 0).parent_id = none ∧
  ∀ i, i < s.nodes.length → ∀ p, (getN s i).parent_id = some p →
    p < s.nodes.length ∧
    (getN s i).path_metric = (getN s p).path_metric + (getN s i).edge_metric ∧
    (getN s i).edge_metric =
      M.log2 (R.rel ((M.encode (regsOf M (getN s p)) (getN s i).in_symbol).1)
        (uconv ((getN s i).depth))) - M.edge_bias

/-- The root accounting: right after the root is materialized the node
count is 1 with the root as the only node, the node count always equals
the number of materialized nodes (so the root is counted, including
towards the budget comparison on `node_count`), and the first child
created by the root expansion carries creation id 1 with the root as
parent. -/
def RootCountSpec {α : Type} [LinearOrderedAddCommGroup α] (M : Machine α) (R : CC_ReliabilityMatrix α)
    (s : DecoderState α) : Prop :=
  (root_state M).node_count = 1 ∧
  (root_state M).nodes.length = 1 ∧
  getN (root_state M) 0 = rootNode M ∧
  s.node_count = s.nodes.length ∧
  getN s 0 = rootNode M ∧
  (1 < (after_init M R).nodes.length →
    (getN (after_init M R) 1).id = 1 ∧
    (getN (after_init M R) 1).parent_id = some 0)

/-- A concrete rate-1 code instance with k = m = n = 1 used by the
witnesses: the encoder echoes the input symbol and keeps its register
state, `log2` is the zero function and the edge bias is 1, so every edge
metric is exactly -1; no limits, no zero tail. -/
def exMachine : Machine ℤ :=
  { k := 1, m := 1, n := 1, init_regs := 0,
    encode := fun regs sym => (sym, regs),
    log2 := fun _ => 0,
    tail_zeros := false,
    use_metric_limit := false, metric_limit := 0,
    use_node_limit := false, node_limit := 0,
    edge_bias := 1 }

/-- A concrete two-position reliability matrix (all reliabilities 1). -/
def exRelMat : CC_ReliabilityMatrix ℤ :=
  { message_length := 2, nb_symbols_log2 := 1, rel := fun _ _ => 1 }

/-- `exMachine` with the zero-tail option enabled. -/
def exMachineTail : Machine ℤ := { exMachine with tail_zeros := true }

/-- `exMachine` with a node budget of 1. -/
def exMachineBudget : Machine ℤ :=
  { exMachine with use_node_limit := true, node_limit := 1 }

/-- A reliability matrix shorter than the encoder memory of `exMachine`. -/
def exRelMatShort : CC_ReliabilityMatrix ℤ :=
  { message_length := 0, nb_symbols_log2 := 1, rel := fun _ _ => 1 }

/-- First loop-entry state of the witness run. -/
def exStateA : DecoderState ℤ := after_init exMachine exRelMat

/-- Witness run state after additionally expanding node 1. -/
def exStateB : DecoderState ℤ := visit_node_forward exMachine exRelMat exStateA 1

/-- Witness run state after additionally expanding node 2; its best
frontier node (id 3) has terminal depth 1. -/
def exStateC : DecoderState ℤ := visit_node_forward exMachine exRelMat exStateB 2

/-! ### Unsigned-arithmetic lemmas -/

theorem usub_eq_sub {a b : Nat} (hb : b ≤ a) (ha : a < u32) : usub a b = a - b := by
  unfold usub u32 at *
  omega

theorem uconv_eq_toNat {d : Int} (h0 : 0 ≤ d) (h : d < (4294967296 : Int)) :
    uconv d = d.toNat := by
  unfold uconv
  omega

/-! ### List helper lemmas -/

theorem getD_append_lt {α : Type} (l₁ l₂ : List α) (d : α) (i : Nat)
    (h : i < l₁.length) : (l₁ ++ l₂).getD i d = l₁.getD i d := by
  simp [List.getD_eq_getElem?_getD, List.getElem?_append_left h]

theorem getD_append_ge {α : Type} (l₁ l₂ : List α) (d : α) (i : Nat)
    (h : l₁.length ≤ i) : (l₁ ++ l₂).getD i d = l₂.getD (i - l₁.length) d := by
  simp [List.getD_eq_getElem?_getD, List.getElem?_append_right h]

theorem getD_eq_getElem {α : Type} (l : List α) (d : α) (i : Nat)
    (h : i < l.length) : l.getD i d = l[i] := by
  simp [List.getD_eq_getElem?_getD, List.getElem?_eq_getElem h]

/-! ### Properties of the frontier order and `stackBest` -/

theorem entry_le_trans {α : Type} [LinearOrderedAddCommGroup α] {x y z : α × Nat}
    (h1 : x.1 < y.1 ∨ (x.1 = y.1 ∧ y.2 ≤ x.2))
    (h2 : y.1 < z.1 ∨ (y.1 = z.1 ∧ z.2 ≤ y.2)) :
    x.1 < z.1 ∨ (x.1 = z.1 ∧ z.2 ≤ x.2) := by
  rcases h1 with h | ⟨he, hn⟩ <;> rcases h2 with h' | ⟨he', hn'⟩
  · exact Or.inl (h.trans h')
  · exact Or.inl (he' ▸ h)
  · exact Or.inl (he ▸ h')
  · exact Or.inr ⟨he.trans he', hn'.trans hn⟩

theorem neoGT_eq_false {α : Type} [LinearOrderedAddCommGroup α] {x a : α × Nat} (h : neoGT x a = false) :
    x.1 < a.1 ∨ (x.1 = a.1 ∧ a.2 ≤ x.2) := by
  unfold neoGT at h
  simp only [Bool.or_eq_false_iff, Bool.and_eq_false_iff, decide_eq_false_iff_not] at h
  obtain ⟨h1, h2⟩ := h
  rcases lt_or_eq_of_le (le_of_not_lt h1) with hlt | heq
  · exact Or.inl hlt
  · refine Or.inr ⟨heq, ?_⟩
    rcases h2 with h2 | h2
    · exact absurd heq h2
    · exact le_of_not_lt h2

theorem neoGT_eq_true {α : Type} [LinearOrderedAddCommGroup α] {x a : α × Nat} (h : neoGT x a = true) :
    a.1 < x.1 ∨ (a.1 = x.1 ∧ x.2 ≤ a.2) := by
  unfold neoGT at h
  simp only [Bool.or_eq_true, Bool.and_eq_true, decide_eq_true_eq] at h
  rcases h with h | ⟨h1, h2⟩
  · exact Or.inl h
  · exact Or.inr ⟨h1.symm, le_of_lt h2⟩

theorem foldl_best_mem {α : Type} [LinearOrderedAddCommGroup α] (l : List (α × Nat)) (a : α × Nat) :
    l.foldl (fun acc x => if neoGT x acc then x else acc) a ∈ a :: l := by
  induction l generalizing a with
  | nil => simp
  | cons x xs ih =>
    simp only [List.foldl_cons]
    rcases List.mem_cons.mp (ih (if neoGT x a then x else a)) with h1 | h1
    · rw [h1]
      split
      · exact List.mem_cons_of_mem _ (List.mem_cons_self _ _)
      · exact List.mem_cons_self _ _
    · exact List.mem_cons_of_mem _ (List.mem_cons_of_mem _ h1)

theorem foldl_best_le {α : Type} [LinearOrderedAddCommGroup α] (l : List (α × Nat)) :
    ∀ (a : α × Nat), ∀ x ∈ a :: l,
      x.1 < (l.foldl (fun acc z => if neoGT z acc then z else acc) a).1 ∨
      (x.1 = (l.foldl (fun acc z => if neoGT z acc then z else acc) a).1 ∧
        (l.foldl (fun acc z => if neoGT z acc then z else acc) a).2 ≤ x.2) := by
  induction l with
  | nil =>
    intro a x hx
    rcases List.mem_cons.mp hx with rfl | h
    · exact Or.inr ⟨rfl, le_refl _⟩
    · simp at h
  | cons y ys ih =>
    intro a x hx
    simp only [List.foldl_cons]
    by_cases hgt : neoGT y a = true
    · rw [if_pos hgt]
      rcases List.mem_cons.mp hx with rfl | hx1
      · exact entry_le_trans (neoGT_eq_true hgt)
          (ih y y (List.mem_cons_self y ys))
      · exact ih y x hx1
    · rw [if_neg hgt]
      rcases List.mem_cons.mp hx with rfl | hx1
      · exact ih _ _ (List.mem_cons_self _ _)
      · rcases List.mem_cons.mp hx1 with rfl | hx2
        · exact entry_le_trans (neoGT_eq_false (Bool.eq_false_iff.mpr hgt))
            (ih _ _ (List.mem_cons_self _ _))
        · exact ih _ _ (List.mem_cons_of_mem _ hx2)

theorem stackBest_mem {α : Type} [LinearOrderedAddCommGroup α] {l : List (α × Nat)} {e : α × Nat}
    (h : stackBest l = some e) : e ∈ l := by
  cases l with
  | nil => simp [stackBest] at h
  | cons a rest =>
    simp only [stackBest, Option.some.injEq] at h
    exact h ▸ foldl_best_mem rest a

theorem stackBest_le {α : Type} [LinearOrderedAddCommGroup α] {l : List (α × Nat)} {e : α × Nat}
    (h : stackBest l = some e) :
    ∀ x ∈ l, x.1 < e.1 ∨ (x.1 = e.1 ∧ e.2 ≤ x.2) := by
  cases l with
  | nil => simp [stackBest] at h
  | cons a rest =>
    simp only [stackBest, Option.some.injEq] at h
    intro x hx
    exact h ▸ foldl_best_le rest a x hx

theorem stackBest_eq_none {α : Type} [LinearOrderedAddCommGroup α] {l : List (α × Nat)} :
    stackBest l = none ↔ l = [] := by
  cases l <;> simp [stackBest]

/-! ### Properties of `remove_node_from_stack` -/

theorem remove_sublist {α : Type} [LinearOrderedAddCommGroup α] (l : List (α × Nat)) (nid : Nat) :
    List.Sublist (remove_node_from_stack l nid) l := by
  induction l with
  | nil => simp [remove_node_from_stack]
  | cons e rest ih =>
    rw [remove_node_from_stack]
    split
    · exact List.sublist_cons_self e rest
    · exact List.Sublist.cons₂ e ih

theorem mem_of_mem_remove {α : Type} [LinearOrderedAddCommGroup α] {l : List (α × Nat)} {nid : Nat} {x : α × Nat}
    (h : x ∈ remove_node_from_stack l nid) : x ∈ l :=
  (remove_sublist l nid).subset h

theorem mem_remove_of_ne {α : Type} [LinearOrderedAddCommGroup α] {l : List (α × Nat)} {nid : Nat} {x : α × Nat}
    (h : x ∈ l) (hne : x.2 ≠ nid) : x ∈ remove_node_from_stack l nid := by
  induction l with
  | nil => simp at h
  | cons e rest ih =>
    rw [remove_node_from_stack]
    rcases List.mem_cons.mp h with rfl | h1
    · rw [if_neg hne]
      exact List.mem_cons_self _ _
    · split
      · exact h1
      · exact List.mem_cons_of_mem _ (ih h1)

theorem not_mem_remove {α : Type} [LinearOrderedAddCommGroup α] {l : List (α × Nat)} {nid : Nat}
    (h : (l.map Prod.snd).Nodup) (q : α) :
    (q, nid) ∉ remove_node_from_stack l nid := by
  induction l with
  | nil => simp [remove_node_from_stack]
  | cons e rest ih =>
    simp only [List.map_cons, List.nodup_cons] at h
    obtain ⟨hnot, hrest⟩ := h
    rw [remove_node_from_stack]
    split
    · intro hmem
      exact hnot (by
        rename_i heq
        rw [heq] at hnot ⊢
        exact List.mem_map.mpr ⟨(q, nid), hmem, rfl⟩)
    · intro hmem
      rcases List.mem_cons.mp hmem with heq | hmem2
      · rename_i hne
        exact hne (by rw [← heq])
      · exact ih hrest hmem2

theorem remove_length_ge {α : Type} [LinearOrderedAddCommGroup α] (l : List (α × Nat)) (nid : Nat) :
    l.length - 1 ≤ (remove_node_from_stack l nid).length := by
  induction l with
  | nil => simp [remove_node_from_stack]
  | cons e rest ih =>
    rw [remove_node_from_stack]
    split
    · simp
    · simp only [List.length_cons]
      omega

theorem remove_map_snd_nodup {α : Type} [LinearOrderedAddCommGroup α] {l : List (α × Nat)} {nid : Nat}
    (h : (l.map Prod.snd).Nodup) :
    ((remove_node_from_stack l nid).map Prod.snd).Nodup :=
  h.sublist ((remove_sublist l nid).map Prod.snd)

/-! ### Properties of the candidate loop -/

theorem candChildren_mem {α : Type} [LinearOrderedAddCommGroup α] (M : Machine α) (R : CC_ReliabilityMatrix α)
    (pid pregs : Nat) (pμ : α) (fd : Int) :
    ∀ (syms : List Nat) (cnt : Nat) (c : Node α),
      c ∈ candChildren M R pid pregs pμ fd syms cnt →
      c.parent_id = some pid ∧ c.depth = fd ∧ c.in_symbol ∈ syms ∧
      c.edge_metric = edge_metric_of M R pregs c.in_symbol fd ∧
      c.path_metric = c.edge_metric + pμ ∧
      c.registers = (M.encode pregs c.in_symbol).2 ∧
      admissible M c.path_metric = true ∧
      cnt ≤ c.id := by
  intro syms
  induction syms with
  | nil => intro cnt c h; simp [candChildren] at h
  | cons sym rest ih =>
    intro cnt c h
    by_cases hadm : admissible M (edge_metric_of M R pregs sym fd + pμ) = true
    · simp only [candChildren] at h
      rw [if_pos hadm] at h
      rcases List.mem_cons.mp h with rfl | h2
      · exact ⟨rfl, rfl, List.mem_cons_self _ _, rfl, rfl, rfl, hadm, le_refl _⟩
      · obtain ⟨h1, h2', h3, h4, h5, h6, h7, h8⟩ := ih (cnt + 1) c h2
        exact ⟨h1, h2', List.mem_cons_of_mem _ h3, h4, h5, h6, h7, by omega⟩
    · simp only [candChildren] at h
      rw [if_neg hadm] at h
      obtain ⟨h1, h2', h3, h4, h5, h6, h7, h8⟩ := ih cnt c h
      exact ⟨h1, h2', List.mem_cons_of_mem _ h3, h4, h5, h6, h7, h8⟩

theorem candChildren_ids {α : Type} [LinearOrderedAddCommGroup α] (M : Machine α) (R : CC_ReliabilityMatrix α)
    (pid pregs : Nat) (pμ : α) (fd : Int) :
    ∀ (syms : List Nat) (cnt : Nat),
      (candChildren M R pid pregs pμ fd syms cnt).map (fun c => c.id) =
        List.range' cnt (candChildren M R pid pregs pμ fd syms cnt).length := by
  intro syms
  induction syms with
  | nil => intro cnt; simp [candChildren]
  | cons sym rest ih =>
    intro cnt
    by_cases hadm : admissible M (edge_metric_of M R pregs sym fd + pμ) = true
    · simp only [candChildren]
      rw [if_pos hadm]
      simp only [List.map_cons, List.length_cons]
      rw [ih (cnt + 1)]
      rfl
    · simp only [candChildren]
      rw [if_neg hadm]
      exact ih cnt

theorem candChildren_getD_id {α : Type} [LinearOrderedAddCommGroup α] (M : Machine α) (R : CC_ReliabilityMatrix α)
    (pid pregs : Nat) (pμ : α) (fd : Int) :
    ∀ (syms : List Nat) (cnt j : Nat),
      j < (candChildren M R pid pregs pμ fd syms cnt).length →
      ((candChildren M R pid pregs pμ fd syms cnt).getD j dummyNode).id =
        cnt + j := by
  intro syms
  induction syms with
  | nil => intro cnt j h; simp [candChildren] at h
  | cons sym rest ih =>
    intro cnt j h
    by_cases hadm : admissible M (edge_metric_of M R pregs sym fd + pμ) = true
    · simp only [candChildren] at h ⊢
      rw [if_pos hadm] at h ⊢
      cases j with
      | zero => rfl
      | succ j' =>
        simp only [List.length_cons] at h
        have := ih (cnt + 1) j' (by omega)
        simp only [List.getD_cons_succ]
        omega
    · simp only [candChildren] at h ⊢
      rw [if_neg hadm] at h ⊢
      exact ih cnt j h

theorem candChildren_length {α : Type} [LinearOrderedAddCommGroup α] (M : Machine α) (R : CC_ReliabilityMatrix α)
    (pid pregs : Nat) (pμ : α) (fd : Int) :
    ∀ (syms : List Nat) (cnt : Nat),
      (candChildren M R pid pregs pμ fd syms cnt).length =
        (syms.filter
          (fun sym => admissible M (edge_metric_of M R pregs sym fd + pμ))).length := by
  intro syms
  induction syms with
  | nil => intro cnt; simp [candChildren]
  | cons sym rest ih =>
    intro cnt
    by_cases hadm : admissible M (edge_metric_of M R pregs sym fd + pμ) = true
    · simp only [candChildren, List.filter_cons, hadm, if_true, if_pos,
        List.length_cons]
      rw [ih (cnt + 1)]
    · have hf : admissible M (edge_metric_of M R pregs sym fd + pμ) = false :=
        Bool.eq_false_iff.mpr hadm
      simp only [candChildren, List.filter_cons, hf, if_false, Bool.false_eq_true]
      exact ih cnt

theorem candChildren_exists {α : Type} [LinearOrderedAddCommGroup α] (M : Machine α) (R : CC_ReliabilityMatrix α)
    (pid pregs : Nat) (pμ : α) (fd : Int) :
    ∀ (syms : List Nat) (cnt sym : Nat), sym ∈ syms →
      admissible M (edge_metric_of M R pregs sym fd + pμ) = true →
      ∃ c ∈ candChildren M R pid pregs pμ fd syms cnt, c.in_symbol = sym := by
  intro syms
  induction syms with
  | nil => intro cnt sym h; simp at h
  | cons s rest ih =>
    intro cnt sym hmem hadm
    rcases List.mem_cons.mp hmem with rfl | h2
    · simp only [candChildren]
      rw [if_pos hadm]
      exact ⟨_, List.mem_cons_self _ _, rfl⟩
    · by_cases hadm2 : admissible M (edge_metric_of M R pregs s fd + pμ) = true
      · simp only [candChildren]
        rw [if_pos hadm2]
        obtain ⟨c, hc, he⟩ := ih (cnt + 1) sym h2 hadm
        exact ⟨c, List.mem_cons_of_mem _ hc, he⟩
      · simp only [candChildren]
        rw [if_neg hadm2]
        exact ih cnt sym h2 hadm

theorem candChildren_length_le {α : Type} [LinearOrderedAddCommGroup α] (M : Machine α) (R : CC_ReliabilityMatrix α)
    (pid pregs : Nat) (pμ : α) (fd : Int) (syms : List Nat) (cnt : Nat) :
    (candChildren M R pid pregs pμ fd syms cnt).length ≤ syms.length := by
  rw [candChildren_length]
  exact List.length_filter_le _ _

theorem candChildren_length_of_no_limit {α : Type} [LinearOrderedAddCommGroup α] (M : Machine α) (R : CC_ReliabilityMatrix α)
    (pid pregs : Nat) (pμ : α) (fd : Int) (h : M.use_metric_limit = false) :
    ∀ (syms : List Nat) (cnt : Nat),
      (candChildren M R pid pregs pμ fd syms cnt).length = syms.length := by
  intro syms
  induction syms with
  | nil => intro cnt; simp [candChildren]
  | cons s rest ih =>
    intro cnt
    have hadm : admissible M (edge_metric_of M R pregs s fd + pμ) = true := by
      simp [admissible, h]
    simp only [candChildren]
    rw [if_pos hadm]
    simp only [List.length_cons]
    rw [ih (cnt + 1)]

/-! ### Properties of one expansion -/

theorem visitNew_mem {α : Type} [LinearOrderedAddCommGroup α] (M : Machine α) (R : CC_ReliabilityMatrix α)
    (s : DecoderState α) (nid : Nat) :
    ∀ c ∈ visitNew M R s nid,
      c.parent_id = some nid ∧ c.depth = (getN s nid).depth + 1 ∧
      c.in_symbol < end_symbol M R ((getN s nid).depth + 1) ∧
      c.edge_metric = edge_metric_of M R (regsOf M (getN s nid)) c.in_symbol
        ((getN s nid).depth + 1) ∧
      c.path_metric = c.edge_metric + (getN s nid).path_metric ∧
      c.registers = (M.encode (regsOf M (getN s nid)) c.in_symbol).2 ∧
      admissible M c.path_metric = true ∧
      s.node_count ≤ c.id := by
  intro c hc
  obtain ⟨h1, h2, h3, h4, h5, h6, h7, h8⟩ :=
    candChildren_mem M R nid (regsOf M (getN s nid)) (getN s nid).path_metric
      ((getN s nid).depth + 1) _ _ c hc
  exact ⟨h1, h2, List.mem_range.mp h3, h4, h5, h6, h7, h8⟩

theorem visitNew_length_le {α : Type} [LinearOrderedAddCommGroup α] (M : Machine α) (R : CC_ReliabilityMatrix α)
    (s : DecoderState α) (nid : Nat) :
    (visitNew M R s nid).length ≤ 2 ^ M.k := by
  refine le_trans (candChildren_length_le _ _ _ _ _ _ _ _) ?_
  rw [List.length_range]
  unfold end_symbol
  split
  · exact Nat.one_le_two_pow
  · exact le_refl _

theorem visitNew_getD_id {α : Type} [LinearOrderedAddCommGroup α] (M : Machine α) (R : CC_ReliabilityMatrix α)
    (s : DecoderState α) (nid : Nat) (j : Nat)
    (h : j < (visitNew M R s nid).length) :
    ((visitNew M R s nid).getD j dummyNode).id = s.node_count + j :=
  candChildren_getD_id M R nid _ _ _ _ _ j h

theorem visitNew_ids {α : Type} [LinearOrderedAddCommGroup α] (M : Machine α) (R : CC_ReliabilityMatrix α)
    (s : DecoderState α) (nid : Nat) :
    (visitNew M R s nid).map (fun c => c.id) =
      List.range' s.node_count (visitNew M R s nid).length :=
  candChildren_ids M R nid _ _ _ _ _

theorem getD_mem {α : Type} (L : List α) (d : α) (j : Nat) (h : j < L.length) :
    L.getD j d ∈ L := by
  rw [getD_eq_getElem _ _ _ h]
  exact List.getElem_mem h

theorem visitNew_getD_of_mem {α : Type} [LinearOrderedAddCommGroup α] (M : Machine α) (R : CC_ReliabilityMatrix α)
    (s : DecoderState α) (nid : Nat) :
    ∀ c ∈ visitNew M R s nid,
      s.node_count ≤ c.id ∧
      c.id < s.node_count + (visitNew M R s nid).length ∧
      (visitNew M R s nid).getD (c.id - s.node_count) dummyNode = c := by
  intro c hc
  obtain ⟨j, hj, hval⟩ := List.getElem_of_mem hc
  have hid : c.id = s.node_count + j := by
    have h2 := visitNew_getD_id M R s nid j hj
    rw [getD_eq_getElem _ _ _ hj, hval] at h2
    exact h2
  refine ⟨by omega, by omega, ?_⟩
  have hj' : c.id - s.node_count = j := by omega
  rw [hj', getD_eq_getElem _ _ _ hj, hval]

theorem visit_nodes {α : Type} [LinearOrderedAddCommGroup α] (M : Machine α) (R : CC_ReliabilityMatrix α)
    (s : DecoderState α) (nid : Nat) :
    (visit_node_forward M R s nid).nodes = s.nodes ++ visitNew M R s nid := rfl

theorem visit_len {α : Type} [LinearOrderedAddCommGroup α] (M : Machine α) (R : CC_ReliabilityMatrix α)
    (s : DecoderState α) (nid : Nat) :
    (visit_node_forward M R s nid).nodes.length =
      s.nodes.length + (visitNew M R s nid).length := by
  rw [visit_nodes]
  exact List.length_append _ _

theorem visit_count {α : Type} [LinearOrderedAddCommGroup α] (M : Machine α) (R : CC_ReliabilityMatrix α)
    (s : DecoderState α) (nid : Nat) :
    (visit_node_forward M R s nid).node_count =
      s.node_count + (visitNew M R s nid).length := rfl

theorem visit_expanded {α : Type} [LinearOrderedAddCommGroup α] (M : Machine α) (R : CC_ReliabilityMatrix α)
    (s : DecoderState α) (nid : Nat) :
    (visit_node_forward M R s nid).expanded = s.expanded ++ [nid] := rfl

theorem visit_score {α : Type} [LinearOrderedAddCommGroup α] (M : Machine α) (R : CC_ReliabilityMatrix α)
    (s : DecoderState α) (nid : Nat) :
    (visit_node_forward M R s nid).codeword_score = s.codeword_score := rfl

theorem visit_stack {α : Type} [LinearOrderedAddCommGroup α] (M : Machine α) (R : CC_ReliabilityMatrix α)
    (s : DecoderState α) (nid : Nat) :
    (visit_node_forward M R s nid).node_edge_stack =
      if 0 ≤ (getN s nid).depth then
        remove_node_from_stack
          (s.node_edge_stack ++
            (visitNew M R s nid).map (fun c => (c.path_metric, c.id))) nid
      else
        s.node_edge_stack ++
          (visitNew M R s nid).map (fun c => (c.path_metric, c.id)) := rfl

theorem getN_visit_old {α : Type} [LinearOrderedAddCommGroup α] (M : Machine α) (R : CC_ReliabilityMatrix α)
    (s : DecoderState α) (nid i : Nat) (h : i < s.nodes.length) :
    getN (visit_node_forward M R s nid) i = getN s i := by
  unfold getN
  rw [visit_nodes]
  exact getD_append_lt _ _ _ _ h

theorem getN_visit_cases {α : Type} [LinearOrderedAddCommGroup α] (M : Machine α) (R : CC_ReliabilityMatrix α)
    (s : DecoderState α) (nid : Nat) (hcount : s.node_count = s.nodes.length)
    (i : Nat) (h : i < (visit_node_forward M R s nid).nodes.length) :
    (i < s.nodes.length ∧ getN (visit_node_forward M R s nid) i = getN s i) ∨
    (s.nodes.length ≤ i ∧
      getN (visit_node_forward M R s nid) i ∈ visitNew M R s nid ∧
      (getN (visit_node_forward M R s nid) i).id = i) := by
  by_cases hlt : i < s.nodes.length
  · exact Or.inl ⟨hlt, getN_visit_old M R s nid i hlt⟩
  · have hge : s.nodes.length ≤ i := le_of_not_lt hlt
    have hlen := visit_len M R s nid
    have hj : i - s.nodes.length < (visitNew M R s nid).length := by omega
    have hgd : getN (visit_node_forward M R s nid) i =
        (visitNew M R s nid).getD (i - s.nodes.length) dummyNode := by
      unfold getN
      rw [visit_nodes]
      exact getD_append_ge _ _ _ _ hge
    refine Or.inr ⟨hge, ?_, ?_⟩
    · rw [hgd]
      exact getD_mem _ _ _ hj
    · rw [hgd, visitNew_getD_id M R s nid _ hj]
      omega

theorem mem_visitNew_getN {α : Type} [LinearOrderedAddCommGroup α] (M : Machine α) (R : CC_ReliabilityMatrix α)
    (s : DecoderState α) (nid : Nat) (hcount : s.node_count = s.nodes.length)
    {c : Node α} (hc : c ∈ visitNew M R s nid) :
    getN (visit_node_forward M R s nid) c.id = c ∧
    s.nodes.length ≤ c.id ∧
    c.id < (visit_node_forward M R s nid).nodes.length := by
  obtain ⟨h1, h2, h3⟩ := visitNew_getD_of_mem M R s nid c hc
  have hlen := visit_len M R s nid
  refine ⟨?_, by omega, by omega⟩
  have hgd : getN (visit_node_forward M R s nid) c.id =
      (visitNew M R s nid).getD (c.id - s.nodes.length) dummyNode := by
    unfold getN
    rw [visit_nodes]
    exact getD_append_ge _ _ _ _ (by omega)
  rw [hgd, show c.id - s.nodes.length = c.id - s.node_count by omega, h3]

theorem uconv_zero : uconv 0 = 0 := rfl

/-! ### The invariant holds at first loop entry -/

theorem getN_root_state {α : Type} [LinearOrderedAddCommGroup α] (M : Machine α) : getN (root_state M) 0 = rootNode M := rfl

theorem inv_after_init {α : Type} [LinearOrderedAddCommGroup α] (M : Machine α) (R : CC_ReliabilityMatrix α)
    (hL1 : 1 ≤ R.message_length) (hL2 : R.message_length < u32) :
    Inv M R (after_init M R) := by
  unfold after_init
  have hroot : getN (root_state M) 0 = rootNode M := rfl
  have hrd : (getN (root_state M) 0).depth = -1 := rfl
  have hcount : (root_state M).node_count = (root_state M).nodes.length := rfl
  have hlen1 : (root_state M).nodes.length = 1 := rfl
  have hcnt1 : (root_state M).node_count = 1 := rfl
  have hlen := visit_len M R (root_state M) 0
  have hnew := visitNew_mem M R (root_state M) 0
  have hstack : (visit_node_forward M R (root_state M) 0).node_edge_stack =
      (visitNew M R (root_state M) 0).map (fun c => (c.path_metric, c.id)) := by
    rw [visit_stack]
    rw [if_neg (by rw [hrd]; omega)]
    rfl
  have hexp : (visit_node_forward M R (root_state M) 0).expanded = [0] := rfl
  have hcases := getN_visit_cases M R (root_state M) 0 hcount
  have hold : getN (visit_node_forward M R (root_state M) 0) 0 =
      getN (root_state M) 0 := getN_visit_old M R (root_state M) 0 0 (by omega)
  refine
    { count_eq := ?_, id_eq := ?_, root_mem := ?_, root_eq := ?_,
      parent_some := ?_, chain := ?_, depth_le := ?_, depth_ge := ?_,
      stack_sound := ?_, stack_complete := ?_, stack_nodup := ?_,
      expanded_lt := ?_, root_expanded := ?_, tail_zero_sym := ?_ }
  · rw [visit_count M R (root_state M) 0, hlen]
    omega
  · intro i hi
    rcases hcases i hi with ⟨hlt, heq⟩ | ⟨hge, hmem, hid⟩
    · have h0 : i = 0 := by omega
      subst h0
      rw [heq, hroot]
      rfl
    · exact hid
  · rw [hlen]
    omega
  · rw [hold, hroot]
  · intro i h0 hi
    rcases hcases i hi with ⟨hlt, _⟩ | ⟨hge, hmem, _⟩
    · omega
    · obtain ⟨h1, -⟩ := hnew _ hmem
      exact ⟨0, h1⟩
  · intro i hi p hp
    rcases hcases i hi with ⟨hlt, heq⟩ | ⟨hge, hmem, hid⟩
    · have h0 : i = 0 := by omega
      subst h0
      rw [heq, hroot] at hp
      simp [rootNode] at hp
    · obtain ⟨h1, h2, h3, h4, h5, h6, h7, h8⟩ := hnew _ hmem
      have hp0 : p = 0 := by
        rw [h1] at hp
        simpa using hp.symm
      subst hp0
      refine ⟨by omega, ?_, ?_, ?_, ?_⟩
      · rw [hold, h2]
      · rw [hold, h5]
      · rw [hold, h2]
        exact h4
      · rw [hold]
        exact h6
  · intro i hi
    rcases hcases i hi with ⟨hlt, heq⟩ | ⟨hge, hmem, _⟩
    · have h0 : i = 0 := by omega
      subst h0
      rw [heq, hroot]
      show (-1 : Int) ≤ (R.message_length : Int) - 1
      omega
    · obtain ⟨-, h2, -⟩ := hnew _ hmem
      rw [h2, hrd]
      show (-1 : Int) + 1 ≤ (R.message_length : Int) - 1
      omega
  · intro i hi
    rcases hcases i hi with ⟨hlt, heq⟩ | ⟨hge, hmem, _⟩
    · have h0 : i = 0 := by omega
      subst h0
      rw [heq, hroot]
      show (-1 : Int) ≤ (-1 : Int)
      omega
    · obtain ⟨-, h2, -⟩ := hnew _ hmem
      rw [h2, hrd]
      omega
  · intro q i hqi
    rw [hstack] at hqi
    obtain ⟨c, hc, hce⟩ := List.mem_map.mp hqi
    have hq : q = c.path_metric := by
      have := congrArg Prod.fst hce
      simpa using this.symm
    have hi : i = c.id := by
      have := congrArg Prod.snd hce
      simpa using this.symm
    obtain ⟨hg1, hg2, hg3⟩ := mem_visitNew_getN M R (root_state M) 0 hcount hc
    subst hq hi
    refine ⟨hg3, by omega, ?_, by rw [hg1]⟩
    rw [hexp]
    simp only [List.mem_singleton]
    omega
  · intro i hi hne hnexp
    rw [hexp] at hnexp
    simp only [List.mem_singleton] at hnexp
    rcases hcases i hi with ⟨hlt, -⟩ | ⟨hge, hmem, hid⟩
    · omega
    · rw [hstack]
      refine List.mem_map.mpr
        ⟨getN (visit_node_forward M R (root_state M) 0) i, hmem, ?_⟩
      simp only [hid]
  · rw [hstack]
    have hmm : ((visitNew M R (root_state M) 0).map
        (fun c => (c.path_metric, c.id))).map Prod.snd =
        (visitNew M R (root_state M) 0).map (fun c => c.id) := by
      rw [List.map_map]
      rfl
    rw [hmm, visitNew_ids]
    exact List.nodup_range' _ _
  · intro i hi
    rw [hexp] at hi
    simp only [List.mem_singleton] at hi
    rw [hlen]
    omega
  · rw [hexp]
    exact List.mem_singleton.mpr rfl
  · intro htz i hi hdep
    rcases hcases i hi with ⟨hlt, heq⟩ | ⟨hge, hmem, -⟩
    · have h0 : i = 0 := by omega
      subst h0
      rw [heq, hroot]
      rfl
    · obtain ⟨-, h2, -⟩ := hnew _ hmem
      rw [h2, hrd] at hdep
      rw [show (-1 : Int) + 1 = 0 from rfl, uconv_zero] at hdep
      omega

/-! ### The invariant is preserved by expanding the best frontier node -/

theorem inv_nonroot_depth {α : Type} [LinearOrderedAddCommGroup α] (M : Machine α) (R : CC_ReliabilityMatrix α)
    (s : DecoderState α) (inv : Inv M R s) (i : Nat) (h : i < s.nodes.length)
    (h0 : i ≠ 0) : 0 ≤ (getN s i).depth := by
  obtain ⟨p, hp⟩ := inv.parent_some i (Nat.pos_of_ne_zero h0) h
  obtain ⟨hpi, hcr⟩ := inv.chain i h p hp
  have hge := inv.depth_ge p (lt_trans hpi h)
  rw [hcr.1]
  omega

theorem inv_visit {α : Type} [LinearOrderedAddCommGroup α] (M : Machine α) (R : CC_ReliabilityMatrix α)
    (hL1 : 1 ≤ R.message_length) (hL2 : R.message_length < u32)
    (s : DecoderState α) (inv : Inv M R s) (pm : α) (bid : Nat)
    (hb : stackBest s.node_edge_stack = some (pm, bid))
    (hguard : uconv ((getN s bid).depth) < usub R.message_length 1) :
    Inv M R (visit_node_forward M R s bid) := by
  obtain ⟨hblt, hbne, hbnexp, hbpm⟩ := inv.stack_sound pm bid (stackBest_mem hb)
  have hbd0 : 0 ≤ (getN s bid).depth := inv_nonroot_depth M R s inv bid hblt hbne
  have hbdle := inv.depth_le bid hblt
  have hdlt : (getN s bid).depth < (R.message_length : Int) - 1 := by
    have hu32 : (u32 : Nat) = 4294967296 := rfl
    have h1 : uconv ((getN s bid).depth) = ((getN s bid).depth).toNat :=
      uconv_eq_toNat hbd0 (by omega)
    have h2 : usub R.message_length 1 = R.message_length - 1 :=
      usub_eq_sub hL1 hL2
    rw [h1, h2] at hguard
    omega
  have hcount := inv.count_eq
  have hcases := getN_visit_cases M R s bid hcount
  have hnew := visitNew_mem M R s bid
  have hlen := visit_len M R s bid
  have hstack : (visit_node_forward M R s bid).node_edge_stack =
      remove_node_from_stack
        (s.node_edge_stack ++
          (visitNew M R s bid).map (fun c => (c.path_metric, c.id))) bid := by
    rw [visit_stack, if_pos hbd0]
  have hexp : (visit_node_forward M R s bid).expanded = s.expanded ++ [bid] := rfl
  have hnodup2 : ((s.node_edge_stack ++
      (visitNew M R s bid).map (fun c => (c.path_metric, c.id))).map
        Prod.snd).Nodup := by
    rw [List.map_append]
    refine List.Nodup.append inv.stack_nodup ?_ ?_
    · rw [show ((visitNew M R s bid).map
          (fun c => (c.path_metric, c.id))).map Prod.snd =
          (visitNew M R s bid).map (fun c => c.id) from by rw [List.map_map]; rfl]
      rw [visitNew_ids]
      exact List.nodup_range' _ _
    · intro a ha hb2
      obtain ⟨x, hx, hxa⟩ := List.mem_map.mp ha
      obtain ⟨y, hy, hya⟩ := List.mem_map.mp hb2
      obtain ⟨c, hc, hcy⟩ := List.mem_map.mp hy
      obtain ⟨-, -, -, -, -, -, -, hcid⟩ := hnew c hc
      have hxlt : x.2 < s.nodes.length :=
        (inv.stack_sound x.1 x.2 (by rwa [show (x.1, x.2) = x from rfl])).1
      have hyeq : y.2 = c.id := by rw [← hcy]
      omega
  have hold : ∀ j, j < s.nodes.length →
      getN (visit_node_forward M R s bid) j = getN s j :=
    fun j hj => getN_visit_old M R s bid j hj
  refine
    { count_eq := ?_, id_eq := ?_, root_mem := ?_, root_eq := ?_,
      parent_some := ?_, chain := ?_, depth_le := ?_, depth_ge := ?_,
      stack_sound := ?_, stack_complete := ?_, stack_nodup := ?_,
      expanded_lt := ?_, root_expanded := ?_, tail_zero_sym := ?_ }
  · rw [visit_count M R s bid, hlen]
    omega
  · intro i hi
    rcases hcases i hi with ⟨hlt, heq⟩ | ⟨hge, hmem, hid⟩
    · rw [heq]
      exact inv.id_eq i hlt
    · exact hid
  · rw [hlen]
    have := inv.root_mem
    omega
  · rw [hold 0 inv.root_mem]
    exact inv.root_eq
  · intro i h0 hi
    rcases hcases i hi with ⟨hlt, heq⟩ | ⟨hge, hmem, -⟩
    · rw [heq]
      exact inv.parent_some i h0 hlt
    · obtain ⟨h1, -⟩ := hnew _ hmem
      exact ⟨bid, h1⟩
  · intro i hi p hp
    rcases hcases i hi with ⟨hlt, heq⟩ | ⟨hge, hmem, hid⟩
    · rw [heq] at hp
      obtain ⟨hpi, hcr⟩ := inv.chain i hlt p hp
      refine ⟨hpi, ?_⟩
      rw [heq, hold p (lt_trans hpi hlt)]
      exact hcr
    · obtain ⟨h1, h2, h3, h4, h5, h6, h7, h8⟩ := hnew _ hmem
      have hp0 : p = bid := by
        rw [h1] at hp
        simpa using hp.symm
      rw [hp0]
      refine ⟨by omega, ?_, ?_, ?_, ?_⟩
      · rw [hold bid hblt, h2]
      · rw [hold bid hblt, h5]
      · rw [hold bid hblt, h2]
        exact h4
      · rw [hold bid hblt]
        exact h6
  · intro i hi
    rcases hcases i hi with ⟨hlt, heq⟩ | ⟨hge, hmem, -⟩
    · rw [heq]
      exact inv.depth_le i hlt
    · obtain ⟨-, h2, -⟩ := hnew _ hmem
      rw [h2]
      omega
  · intro i hi
    rcases hcases i hi with ⟨hlt, heq⟩ | ⟨hge, hmem, -⟩
    · rw [heq]
      exact inv.depth_ge i hlt
    · obtain ⟨-, h2, -⟩ := hnew _ hmem
      rw [h2]
      omega
  · intro q i hqi
    rw [hstack] at hqi
    have hine : i ≠ bid := by
      intro h
      subst h
      exact not_mem_remove hnodup2 q hqi
    have hqi2 := mem_of_mem_remove hqi
    rcases List.mem_append.mp hqi2 with holdm | hnewm
    · obtain ⟨hi1, hi2, hi3, hi4⟩ := inv.stack_sound q i holdm
      refine ⟨by rw [hlen]; omega, hi2, ?_, ?_⟩
      · rw [hexp]
        intro hmem
        rcases List.mem_append.mp hmem with h | h
        · exact hi3 h
        · exact hine (List.mem_singleton.mp h)
      · rw [hold i hi1]
        exact hi4
    · obtain ⟨c, hc, hce⟩ := List.mem_map.mp hnewm
      have hq : q = c.path_metric := by
        have := congrArg Prod.fst hce
        simpa using this.symm
      have hi2 : i = c.id := by
        have := congrArg Prod.snd hce
        simpa using this.symm
      obtain ⟨hg1, hg2, hg3⟩ := mem_visitNew_getN M R s bid hcount hc
      subst hq hi2
      have hroot1 := inv.root_mem
      refine ⟨hg3, by omega, ?_, by rw [hg1]⟩
      rw [hexp]
      intro hmem
      rcases List.mem_append.mp hmem with h | h
      · have := inv.expanded_lt _ h
        omega
      · have := List.mem_singleton.mp h
        omega
  · intro i hi hne hnexp
    rw [hexp] at hnexp
    have h1 : i ∉ s.expanded := fun h => hnexp (List.mem_append_left _ h)
    have h2 : i ≠ bid := fun h =>
      hnexp (List.mem_append_right _ (by rw [h]; exact List.mem_singleton.mpr rfl))
    rcases hcases i hi with ⟨hlt, heq⟩ | ⟨hge, hmem, hid⟩
    · have hmem0 := inv.stack_complete i hlt hne h1
      rw [hstack, heq]
      exact mem_remove_of_ne (List.mem_append_left _ hmem0) h2
    · rw [hstack]
      refine mem_remove_of_ne (List.mem_append_right _
        (List.mem_map.mpr ⟨getN (visit_node_forward M R s bid) i, hmem, ?_⟩)) h2
      simp only [hid]
  · rw [hstack]
    exact remove_map_snd_nodup hnodup2
  · intro i hi
    rw [hexp] at hi
    rw [hlen]
    rcases List.mem_append.mp hi with h | h
    · have := inv.expanded_lt _ h
      omega
    · have := List.mem_singleton.mp h
      omega
  · rw [hexp]
    exact List.mem_append_left _ inv.root_expanded
  · intro htz i hi hdep
    rcases hcases i hi with ⟨hlt, heq⟩ | ⟨hge, hmem, -⟩
    · rw [heq] at hdep ⊢
      exact inv.tail_zero_sym htz i hlt hdep
    · obtain ⟨-, h2, h3, -⟩ := hnew _ hmem
      rw [h2] at hdep
      have he1 : end_symbol M R ((getN s bid).depth + 1) = 1 := by
        unfold end_symbol
        rw [if_pos ⟨htz, hdep⟩]
      rw [he1] at h3
      omega

/-! ### Reachable states satisfy the invariant -/

theorem reaches_inv {α : Type} [LinearOrderedAddCommGroup α] (M : Machine α) (R : CC_ReliabilityMatrix α)
    (hL1 : 1 ≤ R.message_length) (hL2 : R.message_length < u32) :
    ∀ s, Reaches M R s → Inv M R s := by
  intro s hr
  induction hr with
  | start => exact inv_after_init M R hL1 hL2
  | step h hb hguard ih => exact inv_visit M R hL1 hL2 _ ih _ _ hb hguard

/-! ### Unfolding lemmas for the decode loop -/

theorem decodeLoop_none {α : Type} [LinearOrderedAddCommGroup α] (M : Machine α) (R : CC_ReliabilityMatrix α)
    (fuel : Nat) (s : DecoderState α) (h : stackBest s.node_edge_stack = none) :
    decodeLoop M R fuel s =
      if M.use_metric_limit = true then .metricLimitFail s
      else .ubEmptyDeref s := by
  rw [decodeLoop, h]

theorem decodeLoop_exit {α : Type} [LinearOrderedAddCommGroup α] (M : Machine α) (R : CC_ReliabilityMatrix α)
    (fuel : Nat) (s : DecoderState α) (pm : α) (bid : Nat)
    (h : stackBest s.node_edge_stack = some (pm, bid))
    (hterm : ¬ uconv ((getN s bid).depth) < usub R.message_length 1) :
    decodeLoop M R fuel s =
      .success (back_track s.nodes s.nodes.length bid []) pm
        { s with codeword_score := pm } := by
  rw [decodeLoop, h]
  exact if_neg hterm

theorem decodeLoop_zero {α : Type} [LinearOrderedAddCommGroup α] (M : Machine α) (R : CC_ReliabilityMatrix α)
    (s : DecoderState α) (pm : α) (bid : Nat)
    (h : stackBest s.node_edge_stack = some (pm, bid))
    (hguard : uconv ((getN s bid).depth) < usub R.message_length 1) :
    decodeLoop M R 0 s = .outOfFuel s := by
  rw [decodeLoop, h]
  exact if_pos hguard

theorem decodeLoop_succ {α : Type} [LinearOrderedAddCommGroup α] (M : Machine α) (R : CC_ReliabilityMatrix α)
    (fuel : Nat) (s : DecoderState α) (pm : α) (bid : Nat)
    (h : stackBest s.node_edge_stack = some (pm, bid))
    (hguard : uconv ((getN s bid).depth) < usub R.message_length 1) :
    decodeLoop M R (fuel + 1) s =
      if M.use_node_limit = true ∧
          M.node_limit < (visit_node_forward M R s bid).node_count then
        .nodeLimitFail (visit_node_forward M R s bid)
      else decodeLoop M R fuel (visit_node_forward M R s bid) := by
  rw [decodeLoop, h]
  exact if_pos hguard

/-! ### The frontier stays non-empty when no metric limit is set -/

theorem after_init_stack {α : Type} [LinearOrderedAddCommGroup α] (M : Machine α) (R : CC_ReliabilityMatrix α) :
    (after_init M R).node_edge_stack =
      (visitNew M R (root_state M) 0).map (fun c => (c.path_metric, c.id)) := by
  unfold after_init
  rw [visit_stack]
  rw [if_neg (by rw [show (getN (root_state M) 0).depth = -1 from rfl]; omega)]
  rfl

theorem end_symbol_pos {α : Type} [LinearOrderedAddCommGroup α] (M : Machine α) (R : CC_ReliabilityMatrix α) (fd : Int) :
    1 ≤ end_symbol M R fd := by
  unfold end_symbol
  split
  · exact le_refl 1
  · exact Nat.one_le_two_pow

theorem visitNew_length_of_no_limit {α : Type} [LinearOrderedAddCommGroup α] (M : Machine α) (R : CC_ReliabilityMatrix α)
    (s : DecoderState α) (nid : Nat) (huml : M.use_metric_limit = false) :
    (visitNew M R s nid).length = end_symbol M R ((getN s nid).depth + 1) := by
  unfold visitNew
  rw [candChildren_length_of_no_limit M R _ _ _ _ huml]
  exact List.length_range _

theorem visit_stack_ne_nil {α : Type} [LinearOrderedAddCommGroup α] (M : Machine α) (R : CC_ReliabilityMatrix α)
    (s : DecoderState α) (nid : Nat) (huml : M.use_metric_limit = false)
    (hne : s.node_edge_stack ≠ []) :
    (visit_node_forward M R s nid).node_edge_stack ≠ [] := by
  have hlen1 := visitNew_length_of_no_limit M R s nid huml
  have he := end_symbol_pos M R ((getN s nid).depth + 1)
  have hs1 : 0 < s.node_edge_stack.length := List.length_pos.mpr hne
  rw [visit_stack]
  split
  · intro hnil
    have hrem := remove_length_ge
      (s.node_edge_stack ++
        (visitNew M R s nid).map (fun c => (c.path_metric, c.id))) nid
    rw [hnil] at hrem
    rw [List.length_append, List.length_map] at hrem
    simp only [List.length_nil] at hrem
    omega
  · intro hnil
    rw [List.append_eq_nil] at hnil
    exact hne hnil.1

theorem reaches_stack_ne_nil {α : Type} [LinearOrderedAddCommGroup α] (M : Machine α) (R : CC_ReliabilityMatrix α)
    (huml : M.use_metric_limit = false) :
    ∀ s, Reaches M R s → s.node_edge_stack ≠ [] := by
  intro s hr
  induction hr with
  | start =>
    rw [after_init_stack]
    have hlen1 := visitNew_length_of_no_limit M R (root_state M) 0 huml
    have he := end_symbol_pos M R ((getN (root_state M) 0).depth + 1)
    intro hnil
    have := congrArg List.length hnil
    rw [List.length_map] at this
    simp only [List.length_nil] at this
    omega
  | step h hb hguard ih => exact visit_stack_ne_nil M R _ _ huml ih

/-! ### Result-shape lemmas for the decode loop -/

theorem decodeLoop_ne_confError {α : Type} [LinearOrderedAddCommGroup α] (M : Machine α) (R : CC_ReliabilityMatrix α) :
    ∀ (fuel : Nat) (s s₀ : DecoderState α),
      decodeLoop M R fuel s ≠ .confError s₀ := by
  intro fuel
  induction fuel with
  | zero =>
    intro s s₀
    cases hsb : stackBest s.node_edge_stack with
    | none =>
      rw [decodeLoop_none M R 0 s hsb]
      split
      · exact fun h => DecodeResult.noConfusion h
      · exact fun h => DecodeResult.noConfusion h
    | some e =>
      obtain ⟨pm, bid⟩ := e
      by_cases hguard : uconv ((getN s bid).depth) < usub R.message_length 1
      · rw [decodeLoop_zero M R s pm bid hsb hguard]
        exact fun h => DecodeResult.noConfusion h
      · rw [decodeLoop_exit M R 0 s pm bid hsb hguard]
        exact fun h => DecodeResult.noConfusion h
  | succ fuel ih =>
    intro s s₀
    cases hsb : stackBest s.node_edge_stack with
    | none =>
      rw [decodeLoop_none M R (fuel + 1) s hsb]
      split
      · exact fun h => DecodeResult.noConfusion h
      · exact fun h => DecodeResult.noConfusion h
    | some e =>
      obtain ⟨pm, bid⟩ := e
      by_cases hguard : uconv ((getN s bid).depth) < usub R.message_length 1
      · rw [decodeLoop_succ M R fuel s pm bid hsb hguard]
        split
        · exact fun h => DecodeResult.noConfusion h
        · exact ih _ _
      · rw [decodeLoop_exit M R (fuel + 1) s pm bid hsb hguard]
        exact fun h => DecodeResult.noConfusion h

theorem decodeLoop_metricFail_uml {α : Type} [LinearOrderedAddCommGroup α] (M : Machine α) (R : CC_ReliabilityMatrix α) :
    ∀ (fuel : Nat) (s s' : DecoderState α),
      decodeLoop M R fuel s = .metricLimitFail s' →
      M.use_metric_limit = true := by
  intro fuel
  induction fuel with
  | zero =>
    intro s s'
    cases hsb : stackBest s.node_edge_stack with
    | none =>
      rw [decodeLoop_none M R 0 s hsb]
      by_cases huml : M.use_metric_limit = true
      · exact fun _ => huml
      · rw [if_neg huml]
        exact fun h => DecodeResult.noConfusion h
    | some e =>
      obtain ⟨pm, bid⟩ := e
      by_cases hguard : uconv ((getN s bid).depth) < usub R.message_length 1
      · rw [decodeLoop_zero M R s pm bid hsb hguard]
        exact fun h => DecodeResult.noConfusion h
      · rw [decodeLoop_exit M R 0 s pm bid hsb hguard]
        exact fun h => DecodeResult.noConfusion h
  | succ fuel ih =>
    intro s s'
    cases hsb : stackBest s.node_edge_stack with
    | none =>
      rw [decodeLoop_none M R (fuel + 1) s hsb]
      by_cases huml : M.use_metric_limit = true
      · exact fun _ => huml
      · rw [if_neg huml]
        exact fun h => DecodeResult.noConfusion h
    | some e =>
      obtain ⟨pm, bid⟩ := e
      by_cases hguard : uconv ((getN s bid).depth) < usub R.message_length 1
      · rw [decodeLoop_succ M R fuel s pm bid hsb hguard]
        split
        · exact fun h => DecodeResult.noConfusion h
        · exact ih _ _
      · rw [decodeLoop_exit M R (fuel + 1) s pm bid hsb hguard]
        exact fun h => DecodeResult.noConfusion h

theorem decodeLoop_no_fail_of_ne_nil {α : Type} [LinearOrderedAddCommGroup α] (M : Machine α) (R : CC_ReliabilityMatrix α)
    (huml : M.use_metric_limit = false) :
    ∀ (fuel : Nat) (s : DecoderState α), s.node_edge_stack ≠ [] →
      ∀ s' : DecoderState α,
        decodeLoop M R fuel s ≠ .metricLimitFail s' ∧
        decodeLoop M R fuel s ≠ .ubEmptyDeref s' := by
  intro fuel
  induction fuel with
  | zero =>
    intro s hne s'
    cases hsb : stackBest s.node_edge_stack with
    | none => exact absurd (stackBest_eq_none.mp hsb) hne
    | some e =>
      obtain ⟨pm, bid⟩ := e
      by_cases hguard : uconv ((getN s bid).depth) < usub R.message_length 1
      · rw [decodeLoop_zero M R s pm bid hsb hguard]
        exact ⟨fun h => DecodeResult.noConfusion h,
          fun h => DecodeResult.noConfusion h⟩
      · rw [decodeLoop_exit M R 0 s pm bid hsb hguard]
        exact ⟨fun h => DecodeResult.noConfusion h,
          fun h => DecodeResult.noConfusion h⟩
  | succ fuel ih =>
    intro s hne s'
    cases hsb : stackBest s.node_edge_stack with
    | none => exact absurd (stackBest_eq_none.mp hsb) hne
    | some e =>
      obtain ⟨pm, bid⟩ := e
      by_cases hguard : uconv ((getN s bid).depth) < usub R.message_length 1
      · rw [decodeLoop_succ M R fuel s pm bid hsb hguard]
        split
        · exact ⟨fun h => DecodeResult.noConfusion h,
            fun h => DecodeResult.noConfusion h⟩
        · exact ih _ (visit_stack_ne_nil M R s bid huml hne) s'
      · rw [decodeLoop_exit M R (fuel + 1) s pm bid hsb hguard]
        exact ⟨fun h => DecodeResult.noConfusion h,
          fun h => DecodeResult.noConfusion h⟩

/-! ### Node-count bound of the decode loop -/

theorem visit_count_le {α : Type} [LinearOrderedAddCommGroup α] (M : Machine α) (R : CC_ReliabilityMatrix α)
    (s : DecoderState α) (nid : Nat) :
    (visit_node_forward M R s nid).node_count ≤ s.node_count + 2 ^ M.k := by
  rw [visit_count]
  have := visitNew_length_le M R s nid
  omega

theorem decodeLoop_count_bound {α : Type} [LinearOrderedAddCommGroup α] (M : Machine α) (R : CC_ReliabilityMatrix α)
    (hnl : M.use_node_limit = true) (B : Nat) (hB : M.node_limit ≤ B) :
    ∀ (fuel : Nat) (s : DecoderState α),
      s.node_count ≤ B →
      (final_state (decodeLoop M R fuel s)).node_count ≤ B + 2 ^ M.k := by
  intro fuel
  induction fuel with
  | zero =>
    intro s hs
    cases hsb : stackBest s.node_edge_stack with
    | none =>
      rw [decodeLoop_none M R 0 s hsb]
      split
      · exact le_trans hs (Nat.le_add_right B _)
      · exact le_trans hs (Nat.le_add_right B _)
    | some e =>
      obtain ⟨pm, bid⟩ := e
      by_cases hguard : uconv ((getN s bid).depth) < usub R.message_length 1
      · rw [decodeLoop_zero M R s pm bid hsb hguard]
        exact le_trans hs (Nat.le_add_right B _)
      · rw [decodeLoop_exit M R 0 s pm bid hsb hguard]
        exact le_trans hs (Nat.le_add_right B _)
  | succ fuel ih =>
    intro s hs
    cases hsb : stackBest s.node_edge_stack with
    | none =>
      rw [decodeLoop_none M R (fuel + 1) s hsb]
      split
      · exact le_trans hs (Nat.le_add_right B _)
      · exact le_trans hs (Nat.le_add_right B _)
    | some e =>
      obtain ⟨pm, bid⟩ := e
      by_cases hguard : uconv ((getN s bid).depth) < usub R.message_length 1
      · rw [decodeLoop_succ M R fuel s pm bid hsb hguard]
        have hvc := visit_count_le M R s bid
        split
        · exact le_trans hvc (Nat.add_le_add_right hs _)
        · rename_i hnot
          refine ih _ ?_
          rw [Decidable.not_and_iff_or_not] at hnot
          rcases hnot with h | h
          · exact absurd hnl h
          · exact le_trans (not_lt.mp h) hB
      · rw [decodeLoop_exit M R (fuel + 1) s pm bid hsb hguard]
        exact le_trans hs (Nat.le_add_right B _)

/-! ### Decode guard unfolding -/

theorem decode_guards_pass {α : Type} [LinearOrderedAddCommGroup α] (M : Machine α) (R : CC_ReliabilityMatrix α)
    (fuel : Nat) (s₀ : DecoderState α) (hm : M.m ≤ R.message_length)
    (hw : R.nb_symbols_log2 = M.n) :
    decode M R fuel s₀ = decodeLoop M R fuel (after_init M R) := by
  unfold decode
  rw [if_neg (by omega), if_neg (by simp [hw])]

theorem after_init_count {α : Type} [LinearOrderedAddCommGroup α] (M : Machine α) (R : CC_ReliabilityMatrix α) :
    (after_init M R).node_count = 1 + (visitNew M R (root_state M) 0).length :=
  rfl

/-! ### Success shape of the decode loop -/

theorem decodeLoop_success_shape {α : Type} [LinearOrderedAddCommGroup α] (M : Machine α) (R : CC_ReliabilityMatrix α)
    (hL1 : 1 ≤ R.message_length) (hL2 : R.message_length < u32) :
    ∀ (fuel : Nat) (s : DecoderState α), Inv M R s →
      ∀ (msg : List Nat) (score : α) (s' : DecoderState α),
        decodeLoop M R fuel s = .success msg score s' →
        ∃ (pm : α) (bid : Nat),
          stackBest s'.node_edge_stack = some (pm, bid) ∧
          msg = back_track s'.nodes s'.nodes.length bid [] ∧
          score = pm ∧ s'.codeword_score = pm ∧
          bid < s'.nodes.length ∧
          pm = (getN s' bid).path_metric ∧
          (getN s' bid).depth = (R.message_length : Int) - 1 := by
  intro fuel
  induction fuel with
  | zero =>
    intro s inv msg score s'
    cases hsb : stackBest s.node_edge_stack with
    | none =>
      rw [decodeLoop_none M R 0 s hsb]
      split
      · exact fun h => DecodeResult.noConfusion h
      · exact fun h => DecodeResult.noConfusion h
    | some e =>
      obtain ⟨pm, bid⟩ := e
      by_cases hguard : uconv ((getN s bid).depth) < usub R.message_length 1
      · rw [decodeLoop_zero M R s pm bid hsb hguard]
        exact fun h => DecodeResult.noConfusion h
      · rw [decodeLoop_exit M R 0 s pm bid hsb hguard]
        intro h
        injection h with h1 h2 h3
        subst h1
        subst h2
        subst h3
        obtain ⟨hblt, hbne, hbnexp, hbpm⟩ :=
          inv.stack_sound pm bid (stackBest_mem hsb)
        have hbd0 : 0 ≤ (getN s bid).depth :=
          inv_nonroot_depth M R s inv bid hblt hbne
        have hbdle := inv.depth_le bid hblt
        have hdepth : (getN s bid).depth = (R.message_length : Int) - 1 := by
          have hu32 : (u32 : Nat) = 4294967296 := rfl
          have hc1 : uconv ((getN s bid).depth) = ((getN s bid).depth).toNat :=
            uconv_eq_toNat hbd0 (by omega)
          have hc2 : usub R.message_length 1 = R.message_length - 1 :=
            usub_eq_sub hL1 hL2
          rw [hc1, hc2] at hguard
          omega
        exact ⟨pm, bid, hsb, rfl, rfl, rfl, hblt, hbpm, hdepth⟩
  | succ fuel ih =>
    intro s inv msg score s'
    cases hsb : stackBest s.node_edge_stack with
    | none =>
      rw [decodeLoop_none M R (fuel + 1) s hsb]
      split
      · exact fun h => DecodeResult.noConfusion h
      · exact fun h => DecodeResult.noConfusion h
    | some e =>
      obtain ⟨pm, bid⟩ := e
      by_cases hguard : uconv ((getN s bid).depth) < usub R.message_length 1
      · rw [decodeLoop_succ M R fuel s pm bid hsb hguard]
        split
        · exact fun h => DecodeResult.noConfusion h
        · exact ih _ (inv_visit M R hL1 hL2 s inv pm bid hsb hguard) msg score s'
      · rw [decodeLoop_exit M R (fuel + 1) s pm bid hsb hguard]
        intro h
        injection h with h1 h2 h3
        subst h1
        subst h2
        subst h3
        obtain ⟨hblt, hbne, hbnexp, hbpm⟩ :=
          inv.stack_sound pm bid (stackBest_mem hsb)
        have hbd0 : 0 ≤ (getN s bid).depth :=
          inv_nonroot_depth M R s inv bid hblt hbne
        have hbdle := inv.depth_le bid hblt
        have hdepth : (getN s bid).depth = (R.message_length : Int) - 1 := by
          have hu32 : (u32 : Nat) = 4294967296 := rfl
          have hc1 : uconv ((getN s bid).depth) = ((getN s bid).depth).toNat :=
            uconv_eq_toNat hbd0 (by omega)
          have hc2 : usub R.message_length 1 = R.message_length - 1 :=
            usub_eq_sub hL1 hL2
          rw [hc1, hc2] at hguard
          omega
        exact ⟨pm, bid, hsb, rfl, rfl, rfl, hblt, hbpm, hdepth⟩

theorem visit_links {α : Type} [LinearOrderedAddCommGroup α] (M : Machine α) (R : CC_ReliabilityMatrix α)
    (s : DecoderState α) (nid : Nat) :
    (visit_node_forward M R s nid).links =
      s.links ++ (visitNew M R s nid).map (fun c => (nid, c.in_symbol, c.id)) :=
  rfl

/-! ### The claims -/

/-- C1: when the decode loop exits because the best frontier node has
reached terminal depth (message length - 1), `decode` returns true
(`success`), the output message is the symbol sequence collected by walking
parent links from that node to the root in chronological order, and the
recorded decode score equals that node's cumulative path metric. -/
theorem decode_success_backtracks {α : Type} [LinearOrderedAddCommGroup α] (M : Machine α) (R : CC_ReliabilityMatrix α)
    (hL1 : 1 ≤ R.message_length) (hL2 : R.message_length < u32)
    (s : DecoderState α) (hr : Reaches M R s) (pm : α) (bid : Nat)
    (hb : stackBest s.node_edge_stack = some (pm, bid))
    (hterm : ¬ uconv ((getN s bid).depth) < usub R.message_length 1)
    (fuel : Nat) : TerminalExitSpec M R s pm bid fuel := by
  have inv := reaches_inv M R hL1 hL2 s hr
  obtain ⟨hblt, hbne, hbnexp, hbpm⟩ := inv.stack_sound pm bid (stackBest_mem hb)
  have hbd0 : 0 ≤ (getN s bid).depth := inv_nonroot_depth M R s inv bid hblt hbne
  have hbdle := inv.depth_le bid hblt
  have hdepth : (getN s bid).depth = (R.message_length : Int) - 1 := by
    have hu32 : (u32 : Nat) = 4294967296 := rfl
    have hc1 : uconv ((getN s bid).depth) = ((getN s bid).depth).toNat :=
      uconv_eq_toNat hbd0 (by omega)
    have hc2 : usub R.message_length 1 = R.message_length - 1 :=
      usub_eq_sub hL1 hL2
    rw [hc1, hc2] at hterm
    omega
  exact ⟨decodeLoop_exit M R fuel s pm bid hb hterm, hblt, hdepth, hbpm⟩

theorem decode_success_backtracks_witness :
    TerminalExitSpec exMachine exRelMat exStateC (-2) 3 10 := by
  have h1 : Reaches exMachine exRelMat exStateA := Reaches.start
  have h2 : Reaches exMachine exRelMat exStateB :=
    @Reaches.step ℤ _ exMachine exRelMat exStateA (-1) 1 h1 (by decide) (by decide)
  have h3 : Reaches exMachine exRelMat exStateC :=
    @Reaches.step ℤ _ exMachine exRelMat exStateB (-1) 2 h2 (by decide) (by decide)
  exact decode_success_backtracks exMachine exRelMat (by decide) (by decide)
    exStateC h3 (-2) 3 (by decide) (by decide) 10

/-- C2: with a non-empty frontier, the entry selected by `stackBest` (the
node the decode loop expands next, whose key `get_stack_score` reports) is
a frontier entry carrying the numerically greatest cumulative path metric,
with ties between equal metrics won by the earlier-created (smaller id)
node; its key equals the chosen node's cumulative metric. -/
theorem stack_best_choice {α : Type} [LinearOrderedAddCommGroup α] (M : Machine α) (R : CC_ReliabilityMatrix α)
    (hL1 : 1 ≤ R.message_length) (hL2 : R.message_length < u32)
    (s : DecoderState α) (hr : Reaches M R s) (pm : α) (bid : Nat)
    (hb : stackBest s.node_edge_stack = some (pm, bid)) :
    BestChoiceSpec M R s pm bid := by
  have inv := reaches_inv M R hL1 hL2 s hr
  have hmem := stackBest_mem hb
  obtain ⟨hblt, hbne, hbnexp, hbpm⟩ := inv.stack_sound pm bid hmem
  refine ⟨hmem, ?_, ?_, hblt, hbpm, ?_⟩
  · intro q i hqi
    have hle := stackBest_le hb (q, i) hqi
    constructor
    · rcases hle with h | ⟨h, -⟩
      · exact le_of_lt h
      · exact le_of_eq h
    · intro heq
      rcases hle with h | ⟨-, h2⟩
      · exact absurd heq (ne_of_lt h)
      · exact h2
  · unfold get_stack_score
    rw [hb]
  · intro fuel hguard
    exact decodeLoop_succ M R fuel s pm bid hb hguard

theorem stack_best_choice_witness :
    BestChoiceSpec exMachine exRelMat exStateA (-1) 1 :=
  stack_best_choice exMachine exRelMat (by decide) (by decide) exStateA
    Reaches.start (-1) 1 (by decide)

/-- C3: at every point of a decode run the root has been expanded
immediately on creation and is never a frontier member, and a node id
holds a frontier entry exactly when the node has been materialized but not
yet expanded and is not the root. -/
theorem frontier_exactly_unexpanded {α : Type} [LinearOrderedAddCommGroup α] (M : Machine α) (R : CC_ReliabilityMatrix α)
    (hL1 : 1 ≤ R.message_length) (hL2 : R.message_length < u32)
    (s : DecoderState α) (hr : Reaches M R s) : FrontierSpec s := by
  have inv := reaches_inv M R hL1 hL2 s hr
  refine ⟨inv.root_expanded, ?_⟩
  intro i
  constructor
  · rintro ⟨q, hqi⟩
    obtain ⟨h1, h2, h3, -⟩ := inv.stack_sound q i hqi
    exact ⟨h1, h3, h2⟩
  · rintro ⟨h1, h2, h3⟩
    exact ⟨(getN s i).path_metric, inv.stack_complete i h1 h3 h2⟩

theorem frontier_exactly_unexpanded_witness : FrontierSpec exStateA :=
  frontier_exactly_unexpanded exMachine exRelMat (by decide) (by decide)
    exStateA Reaches.start

/-- C9: throughout a decode run the root's cumulative metric is 0, and
every materialized non-root node's cumulative path metric equals its
parent's cumulative metric plus its own edge metric, the edge metric being
log2 of the looked-up reliability (of the encoder output along the edge,
at the node's message position) minus the configured edge bias. -/
theorem path_metric_recurrence {α : Type} [LinearOrderedAddCommGroup α] (M : Machine α) (R : CC_ReliabilityMatrix α)
    (hL1 : 1 ≤ R.message_length) (hL2 : R.message_length < u32)
    (s : DecoderState α) (hr : Reaches M R s) : MetricChainSpec M R s := by
  have inv := reaches_inv M R hL1 hL2 s hr
  have hroot := inv.root_eq
  refine ⟨by rw [hroot]; rfl, by rw [hroot]; rfl, ?_⟩
  intro i hi p hp
  obtain ⟨hpi, hcr⟩ := inv.chain i hi p hp
  obtain ⟨hc1, hc2, hc3, hc4⟩ := hcr
  refine ⟨lt_trans hpi hi, ?_, ?_⟩
  · rw [hc2]
    exact add_comm _ _
  · rw [hc3]
    rfl

theorem path_metric_recurrence_witness :
    MetricChainSpec exMachine exRelMat exStateA :=
  path_metric_recurrence exMachine exRelMat (by decide) (by decide) exStateA
    Reaches.start

/-- C10: immediately after the root is materialized and before any child
exists the node count equals 1 with the root as the only node; throughout
the run the node count equals the number of materialized nodes, so the
root's creation is counted (including towards the budget comparison on
`node_count`); and the first child created by the root expansion carries
creation id 1 with the root as its parent. -/
theorem root_counted {α : Type} [LinearOrderedAddCommGroup α] (M : Machine α) (R : CC_ReliabilityMatrix α)
    (hL1 : 1 ≤ R.message_length) (hL2 : R.message_length < u32)
    (s : DecoderState α) (hr : Reaches M R s) : RootCountSpec M R s := by
  have inv := reaches_inv M R hL1 hL2 s hr
  refine ⟨rfl, rfl, rfl, inv.count_eq, inv.root_eq, ?_⟩
  intro h1
  have inv0 := inv_after_init M R hL1 hL2
  obtain ⟨p, hp⟩ := inv0.parent_some 1 (by omega) h1
  obtain ⟨hpi, -⟩ := inv0.chain 1 h1 p hp
  have hp0 : p = 0 := by omega
  exact ⟨inv0.id_eq 1 h1, by rw [hp, hp0]⟩

theorem root_counted_witness : RootCountSpec exMachine exRelMat exStateA :=
  root_counted exMachine exRelMat (by decide) (by decide) exStateA
    Reaches.start

/-- C4: during expansion of a node, a candidate input symbol below
`end_symbol` is materialized (as a child carrying the next creation id,
linked into the parent's child slot for that symbol, and inserted into the
frontier) exactly when no metric floor is configured or its forward path
metric strictly exceeds the floor; the new children carry consecutive
creation ids from `node_count`, and the node count grows by the number of
admissible candidates only — pruned hypotheses are neither materialized
nor counted. -/
theorem materialization_iff_admissible {α : Type} [LinearOrderedAddCommGroup α]
    (M : Machine α) (R : CC_ReliabilityMatrix α) (s : DecoderState α)
    (nid : Nat) (hn : nid < s.nodes.length) (hc : s.nodes.length ≤ s.node_count) :
    MaterializationSpec M R s nid := by
  have hdrop : (visit_node_forward M R s nid).nodes.drop s.nodes.length =
      visitNew M R s nid := by
    rw [visit_nodes]
    exact List.drop_left _ _
  simp only [MaterializationSpec]
  rw [hdrop]
  refine ⟨?_, visitNew_ids M R s nid, ?_, ?_⟩
  · intro sym hsym
    constructor
    · intro hadm
      obtain ⟨c, hc2, hcs⟩ := candChildren_exists M R nid (regsOf M (getN s nid))
        (getN s nid).path_metric ((getN s nid).depth + 1)
        (List.range (end_symbol M R ((getN s nid).depth + 1))) s.node_count sym
        (List.mem_range.mpr hsym) hadm
      have hc3 : c ∈ visitNew M R s nid := hc2
      obtain ⟨p1, p2, p3, p4, p5, p6, p7, p8⟩ := visitNew_mem M R s nid c hc3
      refine ⟨c, hc3, hcs, p1, ?_, ?_, ?_⟩
      · rw [p5, p4, hcs]
      · rw [visit_links]
        refine List.mem_append_right _ (List.mem_map.mpr ⟨c, hc3, ?_⟩)
        simp only [hcs]
      · rw [visit_stack]
        split
        · refine mem_remove_of_ne (List.mem_append_right _
            (List.mem_map.mpr ⟨c, hc3, rfl⟩)) ?_
          show c.id ≠ nid
          omega
        · exact List.mem_append_right _ (List.mem_map.mpr ⟨c, hc3, rfl⟩)
    · rintro ⟨c, hc3, hcs, -, -, -, -⟩
      obtain ⟨p1, p2, p3, p4, p5, p6, p7, p8⟩ := visitNew_mem M R s nid c hc3
      rw [← hcs, ← p4, ← p5]
      exact p7
  · rw [visit_count]
  · unfold visitNew
    exact candChildren_length M R nid _ _ _ _ _

theorem materialization_iff_admissible_witness :
    MaterializationSpec exMachine exRelMat (root_state exMachine) 0 :=
  materialization_iff_admissible exMachine exRelMat (root_state exMachine) 0
    (by decide) (by decide)

/-- C5 counterexample: with zero tail enabled (`exMachineTail`: message
length 2, memory 1, k = 1) a decode run materializes node 4 at message
position `1 = message_length - m` with input symbol `1 ≠ 0`: the code
restricts the alphabet only at positions strictly greater than
`message_length - m`, so the claim as stated (restriction from position
`message_length - m` on) is false. -/
theorem zero_tail_position_cex :
    exMachineTail.tail_zeros = true ∧
    usub exRelMat.message_length exMachineTail.m = 1 ∧
    4 < (final_state (decode exMachineTail exRelMat 10 initial_state)).nodes.length ∧
    uconv ((getN (final_state (decode exMachineTail exRelMat 10 initial_state))
      4).depth) = 1 ∧
    (getN (final_state (decode exMachineTail exRelMat 10 initial_state))
      4).in_symbol = 1 := by
  refine ⟨rfl, by decide, by decide, by decide, by decide⟩

/-- C5 (amended): with zero tail enabled, expansions producing children at
message positions strictly greater than `message_length - m` consider only
the all-zero input symbol, and no node with a non-zero input symbol is
ever materialized at those positions (at position exactly
`message_length - m` a full scan still occurs, see the counterexample). -/
theorem zero_tail_restricts {α : Type} [LinearOrderedAddCommGroup α]
    (M : Machine α) (R : CC_ReliabilityMatrix α)
    (hL1 : 1 ≤ R.message_length) (hL2 : R.message_length < u32)
    (htz : M.tail_zeros = true) (s : DecoderState α) (hr : Reaches M R s) :
    ZeroTailSpec M R s := by
  have inv := reaches_inv M R hL1 hL2 s hr
  intro i hi hdep
  exact inv.tail_zero_sym htz i hi hdep

theorem zero_tail_restricts_witness :
    ZeroTailSpec exMachineTail exRelMat (after_init exMachineTail exRelMat) :=
  zero_tail_restricts exMachineTail exRelMat (by decide) (by decide) rfl
    (after_init exMachineTail exRelMat) Reaches.start

/-- C6 counterexample: with node budget B = 1 (`exMachineBudget`, k = 1) a
decode run ends in the node-limit failure with 5 materialized nodes,
exceeding B + 2^k = 3: the budget check runs only after in-loop
expansions, so the root expansion is never budget-checked and the claimed
bound `B + 2^k` is false. -/
theorem node_limit_bound_cex :
    exMachineBudget.use_node_limit = true ∧
    exMachineBudget.node_limit = 1 ∧
    decode exMachineBudget exRelMat 10 initial_state =
      .nodeLimitFail (final_state (decode exMachineBudget exRelMat 10 initial_state)) ∧
    (final_state (decode exMachineBudget exRelMat 10 initial_state)).node_count = 5 ∧
    (final_state (decode exMachineBudget exRelMat 10 initial_state)).nodes.length = 5 ∧
    exMachineBudget.node_limit + 2 ^ exMachineBudget.k < 5 := by
  refine ⟨rfl, rfl, by decide, by decide, by decide, by decide⟩

/-- C6 (amended): the node-budget check runs after each in-loop expansion:
an in-loop expansion that pushes the node count over the budget stops the
loop immediately with the boolean node-limit failure, and the total number
of materialized nodes never exceeds `max(B, 1 + 2^k) + 2^k` (the `1 + 2^k`
floor accounts for the never-checked root expansion). -/
theorem node_limit_bound_amended {α : Type} [LinearOrderedAddCommGroup α]
    (M : Machine α) (R : CC_ReliabilityMatrix α) (fuel : Nat)
    (s₀ : DecoderState α) (hm : M.m ≤ R.message_length)
    (hw : R.nb_symbols_log2 = M.n) (hnl : M.use_node_limit = true) :
    NodeBudgetSpec M R fuel s₀ := by
  constructor
  · rw [decode_guards_pass M R fuel s₀ hm hw]
    refine decodeLoop_count_bound M R hnl _ (le_max_left _ _) fuel _ ?_
    rw [after_init_count]
    have h1 := visitNew_length_le M R (root_state M) 0
    have h2 : 1 + (visitNew M R (root_state M) 0).length ≤ 1 + 2 ^ M.k := by
      omega
    exact le_trans h2 (le_max_right _ _)
  · intro s pm bid fuel2 hb hguard hcross
    rw [decodeLoop_succ M R fuel2 s pm bid hb hguard]
    rw [if_pos ⟨hnl, hcross⟩]

theorem node_limit_bound_amended_witness :
    NodeBudgetSpec exMachineBudget exRelMat 10 initial_state :=
  node_limit_bound_amended exMachineBudget exRelMat 10 initial_state
    (by decide) rfl rfl

/-- C7: `decode` raises the configuration error (throwing before any state
is touched, so the instance state is carried unchanged) exactly when the
reliability matrix's message length is smaller than the encoder memory or
its output-symbol alphabet width differs from the code output width; on a
fresh instance with a too-short reliability matrix the node count stays
0. -/
theorem conf_error_iff {α : Type} [LinearOrderedAddCommGroup α]
    (M : Machine α) (R : CC_ReliabilityMatrix α) (fuel : Nat)
    (s₀ : DecoderState α) : ConfErrorSpec M R fuel s₀ := by
  constructor
  · constructor
    · intro h
      unfold decode
      rcases h with h | h
      · rw [if_pos h]
      · by_cases hm : R.message_length < M.m
        · rw [if_pos hm]
        · rw [if_neg hm, if_pos h]
    · intro h
      by_cases hm : R.message_length < M.m
      · exact Or.inl hm
      · by_cases hw : R.nb_symbols_log2 ≠ M.n
        · exact Or.inr hw
        · exfalso
          rw [decode_guards_pass M R fuel s₀ (not_lt.mp hm) (not_not.mp hw)] at h
          exact decodeLoop_ne_confError M R fuel _ s₀ h
  · intro hm
    have hd : decode M R fuel initial_state =
        .confError (initial_state : DecoderState α) := by
      unfold decode
      rw [if_pos hm]
    rw [hd]
    exact ⟨rfl, rfl⟩

theorem conf_error_iff_witness :
    ConfErrorSpec exMachine exRelMatShort 10 initial_state :=
  conf_error_iff exMachine exRelMatShort 10 initial_state

/-- C8: the frontier can only become empty before terminal depth when a
metric floor is configured; the metric-limit exit is a boolean failure
result (a constructor distinct from the thrown configuration error); and
with no metric floor configured neither the metric-limit failure nor the
empty-frontier dereference in the result branch can occur. -/
theorem metric_limit_only_empties {α : Type} [LinearOrderedAddCommGroup α]
    (M : Machine α) (R : CC_ReliabilityMatrix α) (fuel : Nat)
    (s₀ s' : DecoderState α) : MetricFailSpec M R fuel s₀ s' := by
  refine ⟨?_, ?_, ?_⟩
  · intro huml s hr
    exact reaches_stack_ne_nil M R huml s hr
  · intro h
    by_cases hm : R.message_length < M.m
    · unfold decode at h
      rw [if_pos hm] at h
      exact absurd h (fun hh => DecodeResult.noConfusion hh)
    · by_cases hw : R.nb_symbols_log2 ≠ M.n
      · unfold decode at h
        rw [if_neg hm, if_pos hw] at h
        exact absurd h (fun hh => DecodeResult.noConfusion hh)
      · rw [decode_guards_pass M R fuel s₀ (not_lt.mp hm) (not_not.mp hw)] at h
        exact decodeLoop_metricFail_uml M R fuel _ s' h
  · intro huml
    by_cases hm : R.message_length < M.m
    · unfold decode
      rw [if_pos hm]
      exact ⟨fun hh => DecodeResult.noConfusion hh,
        fun hh => DecodeResult.noConfusion hh⟩
    · by_cases hw : R.nb_symbols_log2 ≠ M.n
      · unfold decode
        rw [if_neg hm, if_pos hw]
        exact ⟨fun hh => DecodeResult.noConfusion hh,
          fun hh => DecodeResult.noConfusion hh⟩
      · rw [decode_guards_pass M R fuel s₀ (not_lt.mp hm) (not_not.mp hw)]
        exact decodeLoop_no_fail_of_ne_nil M R huml fuel _
          (reaches_stack_ne_nil M R huml _ Reaches.start) s'

theorem metric_limit_only_empties_witness :
    MetricFailSpec exMachine exRelMat 10 initial_state initial_state :=
  metric_limit_only_empties exMachine exRelMat 10 initial_state initial_state

end ccsoft
